import Mathlib

/-!
Shallow embedding of the core of `og_image_writer` (files
`src/layout/textarea.rs` and `src/writer.rs`): text fragments, per-character
font-tier resolution bundled into glyph runs, lookup of runs by byte range,
character extents, and the per-line render compositor (`paint_text`).

Rust strings are modelled as `List Char`; byte offsets and lengths use the
UTF-8 size of each character (`Char.utf8Size`), matching `str::char_indices`
and `ch.to_string().len()` in the source.  External collaborators that are
not part of the two source files (the font parser, the font-family matcher,
the fallback resolver, the drawing context and the error enum) are modelled
from the spec, as noted on each definition.
-/

/-- Byte length of a string modelled as a character list (Rust `str::len`). -/
def byteLen : List Char → Nat
  | [] => 0
  | c :: cs => c.utf8Size + byteLen cs

/-- Half-open byte range `start..end` (Rust `std::ops::Range<usize>`). -/
structure Rg where
  rstart : Nat
  rend : Nat
deriving DecidableEq, Repr

/-- Modelled from the spec: the crate error enum (`crate::Error`, not under
`src/`).  §7 of the spec lists the kinds; the names follow the variants the
source files actually mention (`NotFoundSpecifiedFontFamily`,
`InvalidFontBytes`, `OutOfRangeText`) plus the fallback-exhaustion error the
spec calls `NoMatchingFontFamily`. -/
inductive Error where
  | NotFoundSpecifiedFontFamily
  | NoMatchingFontFamily
  | OutOfRangeText
  | InvalidFontBytes
deriving DecidableEq, Repr

/-- Modelled from the spec: a font is identified with its character coverage
(`supports(char, font) -> bool`); font files themselves are out of scope. -/
def Font : Type := Char → Bool

/-- Modelled from the spec: the global font-family matching primitive
`match_font_family(ch, font)` (defined in `font.rs`, not under `src/`),
which reports whether `font` supports `ch`. -/
def match_font_family (ch : Char) (font : Font) : Bool := font ch

/-- Which font source covered a sub-range (`FontIndexStore` in `font.rs`):
`Child` = the fragment's own font, `Parent` = the caller-supplied font,
`Global` = a fallback-table handle. -/
inductive FontIndexStore where
  | Child (i : Nat)
  | Parent (i : Nat)
  | Global (i : Nat)
deriving DecidableEq, Repr

/-- Modelled from the spec: the fallback resolver / shared font table
(`FontContext` in `font.rs`, not under `src/`): `select_font_family` maps a
character to a fallback handle and fails (`NoMatchingFontFamily`) when no
fallback supports it; `borrow_font` fetches the font behind a handle. -/
structure FontContext where
  select_font_family : Char → Option Nat
  borrow_font : Nat → Font

/-- Modelled from the spec: the style record (`style.rs`, not under `src/`);
only the fields the two source files read (`font_size`, `color`). -/
structure Style where
  font_size : Nat
  color : Nat
deriving DecidableEq, Repr

/-- Glyph run: a byte sub-range bundled with the font source that covered it
(`Glyph` in `glyph.rs`; constructed as `Glyph::new(range, store)`). -/
structure Glyph where
  range : Rg
  font_index_store : FontIndexStore
deriving DecidableEq, Repr

/-- One appended fragment (`SplitText` in `textarea.rs`). -/
structure SplitText where
  text : List Char
  style : Option Style
  font : Option Font
  range : Rg
  glyphs : List Glyph

/-- Loop state of `SplitText::set_glyphs`: the local `glyphs` vector, the
`&mut current_range_start` cursor, the local `current_range_end`, and
`prev_font_index_store`. -/
structure GState where
  glyphs : List Glyph
  rstart : Nat
  rend : Nat
  prev : Option FontIndexStore
deriving Repr

/-- Per-character tier selection, transcribed from `SplitText::set_glyphs`
lines 43-56: `Child` when the fragment's own font supports the character,
else `Parent` when the caller-supplied font does, else `Global` with the
handle chosen by the fallback resolver, failing with `NoMatchingFontFamily`
when the resolver finds none. -/
def tierE (parentFont : Font) (childFont : Option Font) (fc : FontContext)
    (ch : Char) : Except Error FontIndexStore :=
  let hasParent := match_font_family ch parentFont
  let hasChild := match childFont with
    | some f => match_font_family ch f
    | none => false
  if hasChild then Except.ok (FontIndexStore.Child 0)
  else if hasParent then Except.ok (FontIndexStore.Parent 0)
  else match fc.select_font_family ch with
    | some i => Except.ok (FontIndexStore.Global i)
    | none => Except.error Error.NoMatchingFontFamily

/-- One iteration of the character loop of `SplitText::set_glyphs`
(lines 42-81): compute the tier, compare with `prev_font_index_store`
(the `(Some, None)` arm records the first tier and reports equality), and on
a tier change close the open run — erroring with
`NotFoundSpecifiedFontFamily` if no previous tier was recorded — then open a
new one; finally advance `current_range_end` by the character's byte size. -/
def setGlyphsStep (parentFont : Font) (childFont : Option Font)
    (fc : FontContext) (st : GState) (ch : Char) : Except Error GState :=
  match tierE parentFont childFont fc ch with
  | Except.error e => Except.error e
  | Except.ok fis =>
    let isEqPrev : Bool × Option FontIndexStore :=
      match st.prev with
      | some p => (decide (fis = p), st.prev)
      | none => (true, some fis)
    if isEqPrev.1 then
      Except.ok { st with prev := isEqPrev.2, rend := st.rend + ch.utf8Size }
    else
      match isEqPrev.2 with
      | some store =>
          Except.ok { glyphs := st.glyphs ++ [⟨⟨st.rstart, st.rend⟩, store⟩],
                      rstart := st.rend,
                      rend := st.rend + ch.utf8Size,
                      prev := some fis }
      | none => Except.error Error.NotFoundSpecifiedFontFamily

/-- The character loop of `SplitText::set_glyphs`, as a structural recursion
over the fragment's characters. -/
def setGlyphsLoop (parentFont : Font) (childFont : Option Font)
    (fc : FontContext) : GState → List Char → Except Error GState
  | st, [] => Except.ok st
  | st, ch :: rest =>
      match setGlyphsStep parentFont childFont fc st ch with
      | Except.error e => Except.error e
      | Except.ok st' => setGlyphsLoop parentFont childFont fc st' rest

/-- Fragment glyph resolution, `SplitText::set_glyphs` (textarea.rs 22-101):
run the character loop from the threaded paragraph cursor, then close the
final open run (or, for an empty fragment, append nothing); in both cases
the cursor advances to `current_range_end` and the bundled runs are appended
to `self.glyphs`.  Returns the updated fragment and cursor. -/
def SplitText.set_glyphs (s : SplitText) (parentFont : Font)
    (currentRangeStart : Nat) (fc : FontContext) :
    Except Error (SplitText × Nat) :=
  match setGlyphsLoop parentFont s.font fc
      ⟨[], currentRangeStart, currentRangeStart, none⟩ s.text with
  | Except.error e => Except.error e
  | Except.ok stF =>
    match stF.prev with
    | none => Except.ok ({ s with glyphs := s.glyphs ++ stF.glyphs }, stF.rend)
    | some store =>
        Except.ok
          ({ s with glyphs :=
              s.glyphs ++ (stF.glyphs ++ [⟨⟨stF.rstart, stF.rend⟩, store⟩]) },
           stF.rend)

/-- First glyph in scan order whose range fully contains `r` (the loop of
`SplitText::get_glyphs_from_char_range`, textarea.rs 103-110). -/
def findGlyph : List Glyph → Rg → Option Glyph
  | [], _ => none
  | g :: gs, r =>
      if g.range.rstart ≤ r.rstart ∧ r.rend ≤ g.range.rend then some g
      else findGlyph gs r

/-- `SplitText::get_glyphs_from_char_range`: first run containing `r`. -/
def SplitText.get_glyphs_from_char_range (s : SplitText) (r : Rg) :
    Option Glyph :=
  findGlyph s.glyphs r

/-- Paragraph: an ordered collection of fragments (`TextArea`). -/
structure TextArea where
  splits : List SplitText

/-- `TextArea::new`. -/
def TextArea.new : TextArea := ⟨[]⟩

/-- `TextArea::push` (textarea.rs 124-152): parse the optional font bytes
(failing with `InvalidFontBytes` and leaving the area untouched on malformed
bytes), then append a styled fragment immediately after the prior end.  The
byte parser `Font::try_from_vec` comes from the external font crate and is
passed in as `tfv`.  Returns the Rust `Result<(), Error>` paired with the
post-state. -/
def TextArea.push (tfv : List Nat → Option Font) (ta : TextArea)
    (text : List Char) (style : Style) (font : Option (List Nat)) :
    Except Error Unit × TextArea :=
  let last_range_end :=
    match ta.splits.getLast? with
    | some split => split.range.rend
    | none => 0
  match font with
  | some bytes =>
    match tfv bytes with
    | some f =>
        (Except.ok (),
         ⟨ta.splits ++ [⟨text, some style, some f,
            ⟨last_range_end, last_range_end + byteLen text⟩, []⟩]⟩)
    | none => (Except.error Error.InvalidFontBytes, ta)
  | none =>
      (Except.ok (),
       ⟨ta.splits ++ [⟨text, some style, none,
          ⟨last_range_end, last_range_end + byteLen text⟩, []⟩]⟩)

/-- `TextArea::push_text` (textarea.rs 157-175): append an unstyled
fragment immediately after the prior end. -/
def TextArea.push_text (ta : TextArea) (text : List Char) : TextArea :=
  let last_range_end :=
    match ta.splits.getLast? with
    | some split => split.range.rend
    | none => 0
  ⟨ta.splits ++ [⟨text, none, none,
     ⟨last_range_end, last_range_end + byteLen text⟩, []⟩]⟩

/-- `TextArea::push_text_with_glyphs` (textarea.rs 177-201): append an
unstyled fragment and resolve it immediately against `font` as parent. -/
def TextArea.push_text_with_glyphs (ta : TextArea) (text : List Char)
    (font : Font) (fc : FontContext) : Except Error TextArea :=
  let last_range_end :=
    match ta.splits.getLast? with
    | some split => split.range.rend
    | none => 0
  let split_text : SplitText :=
    ⟨text, none, none, ⟨last_range_end, last_range_end + byteLen text⟩, []⟩
  match split_text.set_glyphs font last_range_end fc with
  | Except.error e => Except.error e
  | Except.ok (split', _) => Except.ok ⟨ta.splits ++ [split']⟩

/-- In-order concatenation of fragment texts (loop of `TextArea::as_string`,
textarea.rs 203-209). -/
def concatTexts : List SplitText → List Char
  | [] => []
  | s :: rest => s.text ++ concatTexts rest

/-- `TextArea::as_string`. -/
def TextArea.as_string (ta : TextArea) : List Char :=
  concatTexts ta.splits

/-- Fragment scan of `TextArea::get_glyphs_from_char_range`
(textarea.rs 211-222): return the first fragment whose run scan succeeds,
together with that run. -/
def lookupSplits : List SplitText → Rg → Option SplitText × Option Glyph
  | [], _ => (none, none)
  | s :: rest, r =>
      match s.get_glyphs_from_char_range r with
      | some g => (some s, some g)
      | none => lookupSplits rest r

/-- `TextArea::get_glyphs_from_char_range`. -/
def TextArea.get_glyphs_from_char_range (ta : TextArea) (r : Rg) :
    Option SplitText × Option Glyph :=
  lookupSplits ta.splits r

/-- Cursor-threaded resolution of every fragment in order (loop of
`TextArea::set_glyphs`, textarea.rs 224-234). -/
def setGlyphsList (parentFont : Font) (fc : FontContext) :
    List SplitText → Nat → Except Error (List SplitText)
  | [], _ => Except.ok []
  | s :: rest, cur =>
      match s.set_glyphs parentFont cur fc with
      | Except.error e => Except.error e
      | Except.ok (s', cur') =>
          match setGlyphsList parentFont fc rest cur' with
          | Except.error e => Except.error e
          | Except.ok rest' => Except.ok (s' :: rest')

/-- `TextArea::set_glyphs` (textarea.rs 224-234): resolve every fragment in
order, threading one paragraph-wide cursor starting at 0. -/
def TextArea.set_glyphs (ta : TextArea) (parentFont : Font)
    (fc : FontContext) : Except Error TextArea :=
  match setGlyphsList parentFont fc ta.splits 0 with
  | Except.error e => Except.error e
  | Except.ok splits' => Except.ok ⟨splits'⟩

/-- Modelled from the spec: the measurement result of the drawing context
(`FontMetrics` in `context.rs`, not under `src/`), kept abstract. -/
abbrev FontMetrics : Type := Nat

/-- Modelled from the spec: the drawing context (`context.rs`, not under
`src/`): `char_extents` measures one character, `text_extents` measures a
string; drawing primitives are recorded as draw calls by the compositor
embedding below. -/
structure Ctx where
  char_extents : Char → Nat → Font → FontMetrics
  text_extents : List Char → Nat → Font → Nat

/-- `TextArea::char_extents` (textarea.rs 236-269): look up the run covering
`range`; measure `ch` with the font chosen by the run's tier (Global handle
fetch / caller's parent font / the fragment's own font, the last failing
with `NotFoundSpecifiedFontFamily` when absent), at the fragment's style's
font size when present, else the supplied default style's. -/
def TextArea.char_extents (ta : TextArea) (ch : Char) (parentFont : Font)
    (range : Rg) (style : Style) (context : Ctx) (fc : FontContext) :
    Except Error FontMetrics :=
  match ta.get_glyphs_from_char_range range with
  | (some split_text, some glyph) =>
    let font_size :=
      match split_text.style with
      | some style' => style'.font_size
      | none => style.font_size
    match glyph.font_index_store with
    | FontIndexStore.Global idx =>
        Except.ok (context.char_extents ch font_size (fc.borrow_font idx))
    | FontIndexStore.Parent _ =>
        Except.ok (context.char_extents ch font_size parentFont)
    | FontIndexStore.Child _ =>
        match split_text.font with
        | some font => Except.ok (context.char_extents ch font_size font)
        | none => Except.error Error.NotFoundSpecifiedFontFamily
  | _ => Except.error Error.OutOfRangeText

/-! ## Render compositor (`writer.rs`) -/

/-- Modelled from the spec: `TextArea::get_split_text_from_char_range`
(called by `paint_text` but not itself under `src/`): the fragment whose
range fully contains `r`, scanning fragments in order ("look up its owning
fragment", spec §4.3). -/
def findSplit : List SplitText → Rg → Option SplitText
  | [], _ => none
  | s :: rest, r =>
      if s.range.rstart ≤ r.rstart ∧ r.rend ≤ s.range.rend then some s
      else findSplit rest r

/-- Modelled from the spec: `TextArea::get_split_text_from_char_range`. -/
def TextArea.get_split_text_from_char_range (ta : TextArea) (r : Rg) :
    Option SplitText :=
  findSplit ta.splits r

/-- Target rectangle of a layout-produced line (only the fields
`paint_text` reads). -/
structure Rect where
  x : Nat
  y : Nat
deriving DecidableEq, Repr

/-- Layout-produced line: a paragraph byte range plus target rectangle. -/
structure Line where
  range : Rg
  rect : Rect

/-- The text element consumed by `OGImageWriter::paint_text` (`Text` in
`element.rs`, not under `src/`; fields as read by `paint_text`). -/
structure Text where
  style : Style
  font : Font
  text : List Char
  lines : List Line
  textarea : TextArea

/-- One issued `context.draw_text` call (arguments in source order). -/
structure DrawCall where
  color : Nat
  x : Nat
  y : Nat
  font_size : Nat
  font : Font
  text : List Char

/-- Style/font pair used for a draw: the accumulated fragment's own style
and font when present, else the element's defaults (the duplicated
`match current_split_text` blocks in `paint_text`, writer.rs 188-201 and
224-237). -/
def styleFontOf (defStyle : Style) (defFont : Font)
    (cst : Option SplitText) : Style × Font :=
  match cst with
  | some s =>
      (match s.style with
       | some style => style
       | none => defStyle,
       match s.font with
       | some f => f
       | none => defFont)
  | none => (defStyle, defFont)

/-- Byte-offset/character pairs of a string (Rust `str::char_indices`),
starting from offset `i`. -/
def charIndices : List Char → Nat → List (Nat × Char)
  | [], _ => []
  | c :: cs, i => (i, c) :: charIndices cs (i + c.utf8Size)

/-- Byte-range slice of a string (Rust `&text[a..b]`), walking characters
from byte position `pos` and keeping those whose byte span lies inside
`[a, b)`; agrees with Rust slicing whenever `a` and `b` are character
boundaries. -/
def sliceBytesGo : List Char → Nat → Nat → Nat → List Char
  | [], _, _, _ => []
  | c :: cs, pos, a, b =>
      if a ≤ pos ∧ pos + c.utf8Size ≤ b then
        c :: sliceBytesGo cs (pos + c.utf8Size) a b
      else sliceBytesGo cs (pos + c.utf8Size) a b

/-- Byte-range slice of a string (Rust `&text[a..b]`). -/
def sliceBytes (s : List Char) (a b : Nat) : List Char :=
  sliceBytesGo s 0 a b

/-- Per-line loop state of `paint_text`: the pending accumulation `range`
(slice-local byte offsets), the horizontal offset `current_width`, the
cross-line `current_split_text`, and the draw calls issued so far. -/
structure PCState where
  range : Rg
  current_width : Nat
  cst : Option SplitText
  calls : List DrawCall

/-- One iteration of the character loop of `paint_text` (writer.rs
167-222): locate the character's owning fragment; when it is contained in
the accumulated fragment (recording the fragment when none was accumulated
yet) just extend the pending range, otherwise flush the pending slice with
the accumulated fragment's style/font, advance the horizontal offset by its
measured width, restart the pending range and switch the accumulated
fragment; in both cases the pending range's end moves past the character. -/
def paintCharStep (ctx : Ctx) (elm : Text) (line : Line) (slice : List Char)
    (st : PCState) (p : Nat × Char) : PCState :=
  let ch_len := p.2.utf8Size
  let split_text := elm.textarea.get_split_text_from_char_range
    ⟨line.range.rstart + p.1, line.range.rstart + p.1 + ch_len⟩
  let containedCst : Bool × Option SplitText :=
    match split_text with
    | some s =>
      match st.cst with
      | some c =>
          (decide (s.range.rstart ≥ c.range.rstart ∧
                   s.range.rend ≤ c.range.rend), st.cst)
      | none => (true, some s)
    | none => (false, st.cst)
  if containedCst.1 then
    { st with cst := containedCst.2,
              range := ⟨st.range.rstart, p.1 + ch_len⟩ }
  else
    let sf := styleFontOf elm.style elm.font containedCst.2
    let next_text := sliceBytes slice st.range.rstart st.range.rend
    { range := ⟨st.range.rend, p.1 + ch_len⟩,
      current_width := st.current_width +
        ctx.text_extents next_text sf.1.font_size sf.2,
      cst := split_text,
      calls := st.calls ++
        [⟨sf.1.color, line.rect.x + st.current_width, line.rect.y,
          sf.1.font_size, sf.2, next_text⟩] }

/-- The character loop of `paint_text` over one line's indexed characters. -/
def paintCharLoop (ctx : Ctx) (elm : Text) (line : Line)
    (slice : List Char) : PCState → List (Nat × Char) → PCState
  | st, [] => st
  | st, p :: ps =>
      paintCharLoop ctx elm line slice (paintCharStep ctx elm line slice st p) ps

/-- One line of `paint_text` (writer.rs 163-248): slice the element text to
the line's byte range, run the character loop from an empty pending range
and zero horizontal offset, then flush the remaining pending slice (when
non-empty) with the accumulated fragment's style/font.  Returns the issued
draw calls and the accumulated fragment, which carries over to the next
line. -/
def paintLine (ctx : Ctx) (elm : Text) (cst : Option SplitText)
    (line : Line) : List DrawCall × Option SplitText :=
  let slice := sliceBytes elm.text line.range.rstart line.range.rend
  let stF := paintCharLoop ctx elm line slice ⟨⟨0, 0⟩, 0, cst, []⟩
    (charIndices slice 0)
  if stF.range.rstart ≥ stF.range.rend then (stF.calls, stF.cst)
  else
    let sf := styleFontOf elm.style elm.font stF.cst
    (stF.calls ++
      [⟨sf.1.color, line.rect.x + stF.current_width, line.rect.y,
        sf.1.font_size, sf.2,
        sliceBytes slice stF.range.rstart stF.range.rend⟩],
     stF.cst)

/-- The line loop of `paint_text`: lines in order, accumulating draw calls
and threading `current_split_text` across lines (it is never reset). -/
def paintLines (ctx : Ctx) (elm : Text) :
    List DrawCall × Option SplitText → List Line →
    List DrawCall × Option SplitText
  | acc, [] => acc
  | acc, l :: ls =>
      let r := paintLine ctx elm acc.2 l
      paintLines ctx elm (acc.1 ++ r.1, r.2) ls

/-- `OGImageWriter::paint_text` (writer.rs 160-251), with the backend's
`draw_text`/`text_extents` primitives modelled by `ctx` and draws recorded
as a call list (the rasterization backend is an external collaborator whose
failures are out of scope, spec §1/§6). -/
def OGImageWriter.paint_text (ctx : Ctx) (elm : Text) :
    List DrawCall :=
  (paintLines ctx elm ([], none) elm.lines).1

/-! ## Specification-side predicates -/

/-- Runs `gs` exactly partition `[a, b)` in left-to-right order: the first
run starts at `a`, each run is forward (`start ≤ end`) and adjacent to the
next (no gap, no overlap), and the last run ends at `b`. -/
def runsChainB : List Glyph → Nat → Nat → Bool
  | [], a, b => decide (a = b)
  | g :: gs, a, b =>
      decide (g.range.rstart = a) && decide (g.range.rstart ≤ g.range.rend)
        && runsChainB gs g.range.rend b

/-- Adjacent runs carry different font tiers (maximality). -/
def adjDistinctB : List Glyph → Bool
  | [] => true
  | [_] => true
  | g1 :: g2 :: gs =>
      decide (g1.font_index_store ≠ g2.font_index_store)
        && adjDistinctB (g2 :: gs)

/-- Tier recorded by the first run (in scan order) fully containing `r`. -/
def glyphStoreAt (gs : List Glyph) (r : Rg) : Option FontIndexStore :=
  (findGlyph gs r).map Glyph.font_index_store

/-- The post-append, pre-resolution shape of a fragment list starting at
byte offset `a`: ranges are contiguous, each range's length is the
fragment's byte length, and no glyphs are resolved yet.  This is what any
sequence of `push`/`push_text` appends produces (see
`applyAppends_wf`). -/
def wfFrom : Nat → List SplitText → Bool
  | _, [] => true
  | a, s :: rest =>
      decide (s.range.rstart = a)
        && decide (s.range.rend = a + byteLen s.text)
        && s.glyphs.isEmpty
        && wfFrom s.range.rend rest

/-- Post-append, pre-resolution well-formedness of a whole `TextArea`. -/
def wfB (ta : TextArea) : Bool := wfFrom 0 ta.splits

/-- All (fragment, run) pairs of a `TextArea`, fragments then runs in
order. -/
def pairsOf (ta : TextArea) : List (SplitText × Glyph) :=
  (ta.splits.map (fun s => s.glyphs.map (fun g => (s, g)))).flatten

/-- Spec-side lookup ("returns the fragment and run whose range fully
contains `range`, scanning fragments then runs in order", spec §4.2): the
first pair, in that order, whose run range contains the query. -/
def lookupSpec (ta : TextArea) (r : Rg) : Option (SplitText × Glyph) :=
  (pairsOf ta).find? (fun p =>
    decide (p.2.range.rstart ≤ r.rstart) && decide (r.rend ≤ p.2.range.rend))

/-- One append operation performed on a `TextArea`. -/
inductive AppendOp where
  | push (text : List Char) (style : Style) (fontBytes : Option (List Nat))
  | push_text (text : List Char)
  | push_text_with_glyphs (text : List Char) (font : Font) (fc : FontContext)

/-- The text argument of an append operation. -/
def AppendOp.textOf : AppendOp → List Char
  | AppendOp.push t _ _ => t
  | AppendOp.push_text t => t
  | AppendOp.push_text_with_glyphs t _ _ => t

/-- Whether an append resolves glyphs immediately. -/
def AppendOp.resolves : AppendOp → Bool
  | AppendOp.push_text_with_glyphs _ _ _ => true
  | _ => false

/-- Perform a sequence of append operations in order, stopping at the first
failure. -/
def applyAppends (tfv : List Nat → Option Font) (ta : TextArea) :
    List AppendOp → Except Error TextArea
  | [] => Except.ok ta
  | AppendOp.push t sty fb :: rest =>
      match TextArea.push tfv ta t sty fb with
      | (Except.ok _, ta') => applyAppends tfv ta' rest
      | (Except.error e, _) => Except.error e
  | AppendOp.push_text t :: rest =>
      applyAppends tfv (ta.push_text t) rest
  | AppendOp.push_text_with_glyphs t f fc :: rest =>
      match ta.push_text_with_glyphs t f fc with
      | Except.error e => Except.error e
      | Except.ok ta' => applyAppends tfv ta' rest

/-! ## Basic lemmas -/

theorem byteLen_append (l1 l2 : List Char) :
    byteLen (l1 ++ l2) = byteLen l1 + byteLen l2 := by
  induction l1 with
  | nil => simp [byteLen]
  | cons c cs ih => simp [byteLen, ih]; omega

theorem runsChainB_nil_iff (a b : Nat) :
    runsChainB [] a b = true ↔ a = b := by
  simp [runsChainB]

theorem runsChainB_cons_iff (g : Glyph) (gs : List Glyph) (a b : Nat) :
    runsChainB (g :: gs) a b = true ↔
      g.range.rstart = a ∧ g.range.rstart ≤ g.range.rend ∧
        runsChainB gs g.range.rend b = true := by
  simp [runsChainB, and_assoc]

theorem runsChainB_start_le {gs : List Glyph} {a b : Nat}
    (h : runsChainB gs a b = true) : a ≤ b := by
  induction gs generalizing a with
  | nil => exact le_of_eq ((runsChainB_nil_iff a b).mp h)
  | cons g gs ih =>
      obtain ⟨h1, h2, h3⟩ := (runsChainB_cons_iff g gs a b).mp h
      have := ih h3
      omega

theorem runsChainB_mem_rend_le {gs : List Glyph} {a b : Nat}
    (h : runsChainB gs a b = true) {g : Glyph} (hm : g ∈ gs) :
    g.range.rend ≤ b := by
  induction gs generalizing a with
  | nil => cases hm
  | cons g0 gs ih =>
      obtain ⟨h1, h2, h3⟩ := (runsChainB_cons_iff g0 gs a b).mp h
      rcases List.mem_cons.mp hm with rfl | hm'
      · exact runsChainB_start_le h3
      · exact ih h3 hm'

theorem runsChainB_append_singleton {gs : List Glyph} {a b c : Nat}
    {p : FontIndexStore} (h : runsChainB gs a b = true) (hbc : b ≤ c) :
    runsChainB (gs ++ [⟨⟨b, c⟩, p⟩]) a c = true := by
  induction gs generalizing a with
  | nil =>
      have hab := (runsChainB_nil_iff a b).mp h
      subst hab
      exact (runsChainB_cons_iff _ _ _ _).mpr ⟨rfl, hbc, (runsChainB_nil_iff _ _).mpr rfl⟩
  | cons g gs ih =>
      obtain ⟨h1, h2, h3⟩ := (runsChainB_cons_iff g gs a b).mp h
      exact (runsChainB_cons_iff _ _ _ _).mpr ⟨h1, h2, ih h3⟩

theorem findGlyph_append (gs hs : List Glyph) (r : Rg) :
    findGlyph (gs ++ hs) r =
      match findGlyph gs r with
      | some g => some g
      | none => findGlyph hs r := by
  induction gs with
  | nil => simp [findGlyph]
  | cons g gs ih =>
      by_cases hc : g.range.rstart ≤ r.rstart ∧ r.rend ≤ g.range.rend
      · simp [findGlyph, hc]
      · simp [findGlyph, hc, ih]

theorem findGlyph_none_of {gs : List Glyph} {r : Rg}
    (h : ∀ g ∈ gs, ¬(g.range.rstart ≤ r.rstart ∧ r.rend ≤ g.range.rend)) :
    findGlyph gs r = none := by
  induction gs with
  | nil => rfl
  | cons g gs ih =>
      have hg := h g (List.mem_cons_self g gs)
      simp [findGlyph, hg]
      exact ih (fun g' hm => h g' (List.mem_cons_of_mem g hm))

theorem glyphStoreAt_append_of_some {gs hs : List Glyph} {r : Rg}
    {q : FontIndexStore} (h : glyphStoreAt gs r = some q) :
    glyphStoreAt (gs ++ hs) r = some q := by
  unfold glyphStoreAt at h ⊢
  rw [findGlyph_append]
  cases hfg : findGlyph gs r with
  | none => rw [hfg] at h; simp at h
  | some g => rw [hfg] at h; exact h

theorem glyphStoreAt_extend_last {gs : List Glyph} {x b b' : Nat}
    {p : FontIndexStore} {r : Rg} {q : FontIndexStore}
    (h : glyphStoreAt (gs ++ [⟨⟨x, b⟩, p⟩]) r = some q) (hb : b ≤ b') :
    glyphStoreAt (gs ++ [⟨⟨x, b'⟩, p⟩]) r = some q := by
  unfold glyphStoreAt at h ⊢
  rw [findGlyph_append] at h ⊢
  cases hfg : findGlyph gs r with
  | some g => rw [hfg] at h; exact h
  | none =>
      rw [hfg] at h
      simp only [findGlyph] at h ⊢
      by_cases hc : x ≤ r.rstart ∧ r.rend ≤ b
      · have hc' : x ≤ r.rstart ∧ r.rend ≤ b' := ⟨hc.1, le_trans hc.2 hb⟩
        simp [hc] at h
        simp [hc', h]
      · simp [hc] at h

theorem glyphStoreAt_last {gs : List Glyph} {x c off u : Nat}
    {p : FontIndexStore} (hu : 0 < u) (hx : x ≤ off) (hc : off + u ≤ c)
    (hends : ∀ g ∈ gs, g.range.rend ≤ off) :
    glyphStoreAt (gs ++ [⟨⟨x, c⟩, p⟩]) ⟨off, off + u⟩ = some p := by
  unfold glyphStoreAt
  rw [findGlyph_append]
  have hnone : findGlyph gs ⟨off, off + u⟩ = none := by
    refine findGlyph_none_of (fun g hm => ?_)
    have := hends g hm
    intro hcon
    simp at hcon
    omega
  rw [hnone]
  simp [findGlyph, hx, hc]

theorem adjDistinctB_cons_cons_iff (g1 g2 : Glyph) (gs : List Glyph) :
    adjDistinctB (g1 :: g2 :: gs) = true ↔
      g1.font_index_store ≠ g2.font_index_store ∧
        adjDistinctB (g2 :: gs) = true := by
  simp [adjDistinctB]

theorem adjDistinctB_map_eq {gs hs : List Glyph}
    (h : gs.map Glyph.font_index_store = hs.map Glyph.font_index_store) :
    adjDistinctB gs = adjDistinctB hs := by
  induction gs generalizing hs with
  | nil => cases hs <;> simp_all
  | cons g gs ih =>
      cases hs with
      | nil => simp at h
      | cons h0 hs =>
          simp only [List.map_cons, List.cons.injEq] at h
          cases gs with
          | nil => cases hs <;> simp_all [adjDistinctB]
          | cons g1 gs1 =>
              cases hs with
              | nil => simp at h
              | cons h1 hs1 =>
                  have hmap : (g1 :: gs1).map Glyph.font_index_store =
                      (h1 :: hs1).map Glyph.font_index_store := h.2
                  have htail := ih hmap
                  have hg1 : g1.font_index_store = h1.font_index_store := by
                    simpa using congrArg (fun l => l.head?) hmap
                  simp [adjDistinctB, htail, h.1, hg1]

theorem adjDistinctB_snoc {gs : List Glyph} {r : Rg} {p : FontIndexStore}
    (h : adjDistinctB gs = true)
    (hl : ∀ g, gs.getLast? = some g → g.font_index_store ≠ p) :
    adjDistinctB (gs ++ [⟨r, p⟩]) = true := by
  induction gs with
  | nil => simp [adjDistinctB]
  | cons g gs ih =>
      cases gs with
      | nil =>
          have := hl g rfl
          simp [adjDistinctB, this]
      | cons g1 gs1 =>
          obtain ⟨h1, h2⟩ := (adjDistinctB_cons_cons_iff g g1 gs1).mp h
          have ih' := ih h2 (fun g' hg' => hl g' (by
            rw [List.getLast?_cons_cons]; exact hg'))
          simp only [List.cons_append] at ih' ⊢
          exact (adjDistinctB_cons_cons_iff _ _ _).mpr ⟨h1, ih'⟩

/-! ## Resolution-loop invariant -/

/-- The open (not yet closed) run of a loop state, if any. -/
def pend (st : GState) : List Glyph :=
  match st.prev with
  | some p => [⟨⟨st.rstart, st.rend⟩, p⟩]
  | none => []

theorem setGlyphsStep_err {pf : Font} {cf : Option Font} {fc : FontContext}
    {st : GState} {ch : Char} {e : Error}
    (ht : tierE pf cf fc ch = Except.error e) :
    setGlyphsStep pf cf fc st ch = Except.error e := by
  unfold setGlyphsStep
  rw [ht]

theorem setGlyphsStep_first {pf : Font} {cf : Option Font} {fc : FontContext}
    {st : GState} {ch : Char} {fis : FontIndexStore}
    (hp : st.prev = none) (ht : tierE pf cf fc ch = Except.ok fis) :
    setGlyphsStep pf cf fc st ch =
      Except.ok { st with prev := some fis, rend := st.rend + ch.utf8Size } := by
  unfold setGlyphsStep
  rw [ht, hp]
  simp

theorem setGlyphsStep_same {pf : Font} {cf : Option Font} {fc : FontContext}
    {st : GState} {ch : Char} {p : FontIndexStore}
    (hp : st.prev = some p) (ht : tierE pf cf fc ch = Except.ok p) :
    setGlyphsStep pf cf fc st ch =
      Except.ok { st with prev := some p, rend := st.rend + ch.utf8Size } := by
  unfold setGlyphsStep
  rw [ht, hp]
  simp

theorem setGlyphsStep_change {pf : Font} {cf : Option Font} {fc : FontContext}
    {st : GState} {ch : Char} {p fis : FontIndexStore}
    (hp : st.prev = some p) (ht : tierE pf cf fc ch = Except.ok fis)
    (hne : fis ≠ p) :
    setGlyphsStep pf cf fc st ch =
      Except.ok ⟨st.glyphs ++ [⟨⟨st.rstart, st.rend⟩, p⟩],
                 st.rend, st.rend + ch.utf8Size, some fis⟩ := by
  unfold setGlyphsStep
  rw [ht, hp]
  simp [hne]

/-- Invariant of the character loop of `SplitText::set_glyphs`, tied to the
list of characters already processed and the paragraph offset `a` the
fragment started at. -/
structure GInv (pf : Font) (cf : Option Font) (fc : FontContext) (a : Nat)
    (processed : List Char) (st : GState) : Prop where
  chainG : runsChainB st.glyphs a st.rstart = true
  rstart_le : st.rstart ≤ st.rend
  rend_eq : st.rend = a + byteLen processed
  prev_none : st.prev = none → st.glyphs = [] ∧ st.rstart = a ∧ processed = []
  adj : adjDistinctB (st.glyphs ++ pend st) = true
  covers : ∀ i (hi : i < processed.length), ∃ q,
      tierE pf cf fc (processed.get ⟨i, hi⟩) = Except.ok q ∧
      glyphStoreAt (st.glyphs ++ pend st)
        ⟨a + byteLen (processed.take i),
         a + byteLen (processed.take i) + (processed.get ⟨i, hi⟩).utf8Size⟩
        = some q

theorem GInv.init (pf : Font) (cf : Option Font) (fc : FontContext) (a : Nat) :
    GInv pf cf fc a [] ⟨[], a, a, none⟩ := by
  refine ⟨?_, le_refl a, ?_, ?_, ?_, ?_⟩
  · exact (runsChainB_nil_iff a a).mpr rfl
  · simp [byteLen]
  · intro _; exact ⟨rfl, rfl, rfl⟩
  · simp [pend, adjDistinctB]
  · intro i hi; simp at hi

theorem take_append_lt {α : Type _} {l : List α} {x : α} {i : Nat}
    (h : i ≤ l.length) : (l ++ [x]).take i = l.take i :=
  List.take_append_of_le_length h

theorem get_append_lt {α : Type _} {l : List α} {x : α} {i : Nat}
    (h : i < l.length) (h2 : i < (l ++ [x]).length) :
    (l ++ [x]).get ⟨i, h2⟩ = l.get ⟨i, h⟩ := by
  simp [List.get_eq_getElem, List.getElem_append_left h]

theorem get_append_last {α : Type _} (l : List α) (x : α)
    (h : l.length < (l ++ [x]).length) :
    (l ++ [x]).get ⟨l.length, h⟩ = x := by
  simp [List.get_eq_getElem]

theorem GInv.step {pf : Font} {cf : Option Font} {fc : FontContext} {a : Nat}
    {processed : List Char} {st st' : GState} {ch : Char}
    (inv : GInv pf cf fc a processed st)
    (h : setGlyphsStep pf cf fc st ch = Except.ok st') :
    GInv pf cf fc a (processed ++ [ch]) st' := by
  cases ht : tierE pf cf fc ch with
  | error e =>
      rw [setGlyphsStep_err ht] at h
      exact absurd h (by simp)
  | ok fis =>
    cases hp : st.prev with
    | none =>
        rw [setGlyphsStep_first hp ht] at h
        injection h with h
        subst h
        obtain ⟨hg, hr, hproc⟩ := inv.prev_none hp
        subst hproc
        have hrend : st.rend = a := by
          have := inv.rend_eq
          simpa [byteLen] using this
        refine ⟨?_, ?_, ?_, ?_, ?_, ?_⟩
        · show runsChainB st.glyphs a st.rstart = true
          rw [hg, hr]
          exact (runsChainB_nil_iff a a).mpr rfl
        · show st.rstart ≤ st.rend + ch.utf8Size
          omega
        · show st.rend + ch.utf8Size = a + byteLen ([] ++ [ch])
          simp [byteLen, hrend]
        · intro hcon; simp at hcon
        · show adjDistinctB (st.glyphs ++ pend ⟨st.glyphs, st.rstart, st.rend + ch.utf8Size, some fis⟩) = true
          simp [pend, hg, adjDistinctB]
        · intro i hi
          simp at hi
          subst hi
          refine ⟨fis, ht, ?_⟩
          simp [pend, hg, glyphStoreAt, findGlyph, byteLen, hr, hrend]
    | some p =>
      by_cases hfp : fis = p
      · subst hfp
        rw [setGlyphsStep_same hp ht] at h
        injection h with h
        subst h
        refine ⟨inv.chainG, ?_, ?_, ?_, ?_, ?_⟩
        · exact le_trans inv.rstart_le (Nat.le_add_right _ _)
        · show st.rend + ch.utf8Size = a + byteLen (processed ++ [ch])
          rw [byteLen_append, inv.rend_eq]
          simp [byteLen]
          omega
        · intro hcon; simp at hcon
        · show adjDistinctB (st.glyphs ++
            pend ⟨st.glyphs, st.rstart, st.rend + ch.utf8Size, some fis⟩) = true
          have hmap : (st.glyphs ++
              pend ⟨st.glyphs, st.rstart, st.rend + ch.utf8Size, some fis⟩).map
                Glyph.font_index_store =
              (st.glyphs ++ pend st).map Glyph.font_index_store := by
            simp [pend, hp]
          rw [adjDistinctB_map_eq hmap]
          exact inv.adj
        · intro i hi
          by_cases hilt : i < processed.length
          · obtain ⟨q, hq1, hq2⟩ := inv.covers i hilt
            rw [take_append_lt (le_of_lt hilt), get_append_lt hilt hi]
            refine ⟨q, hq1, ?_⟩
            have hq2' : glyphStoreAt
                (st.glyphs ++ [⟨⟨st.rstart, st.rend⟩, fis⟩])
                ⟨a + byteLen (processed.take i),
                 a + byteLen (processed.take i) +
                   (processed.get ⟨i, hilt⟩).utf8Size⟩ = some q := by
              simpa [pend, hp] using hq2
            have hext := glyphStoreAt_extend_last hq2'
              (Nat.le_add_right st.rend ch.utf8Size)
            simpa [pend] using hext
          · have hieq : i = processed.length := by
              simp at hi; omega
            subst hieq
            have htake : (processed ++ [ch]).take processed.length = processed :=
              List.take_left processed [ch]
            rw [htake, get_append_last processed ch hi]
            refine ⟨fis, ht, ?_⟩
            have hoff : a + byteLen processed = st.rend := inv.rend_eq.symm
            rw [hoff]
            have hends : ∀ g ∈ st.glyphs, g.range.rend ≤ st.rend :=
              fun g hm => le_trans (runsChainB_mem_rend_le inv.chainG hm)
                inv.rstart_le
            have := glyphStoreAt_last (p := fis) (x := st.rstart)
              (c := st.rend + ch.utf8Size) (Char.utf8Size_pos ch)
              inv.rstart_le (le_refl _) hends
            simpa [pend] using this
      · rw [setGlyphsStep_change hp ht hfp] at h
        injection h with h
        subst h
        have hchain' : runsChainB
            (st.glyphs ++ [⟨⟨st.rstart, st.rend⟩, p⟩]) a st.rend = true :=
          runsChainB_append_singleton inv.chainG inv.rstart_le
        refine ⟨hchain', Nat.le_add_right _ _, ?_, ?_, ?_, ?_⟩
        · show st.rend + ch.utf8Size = a + byteLen (processed ++ [ch])
          rw [byteLen_append, inv.rend_eq]
          simp [byteLen]
          omega
        · intro hcon; simp at hcon
        · show adjDistinctB ((st.glyphs ++ [⟨⟨st.rstart, st.rend⟩, p⟩]) ++
            pend ⟨st.glyphs ++ [⟨⟨st.rstart, st.rend⟩, p⟩],
              st.rend, st.rend + ch.utf8Size, some fis⟩) = true
          have hadj : adjDistinctB (st.glyphs ++ [⟨⟨st.rstart, st.rend⟩, p⟩]) = true := by
            have := inv.adj
            simpa [pend, hp] using this
          have hsnoc := adjDistinctB_snoc (r := ⟨st.rend, st.rend + ch.utf8Size⟩)
            (p := fis) hadj (fun g hg => by
              rw [List.getLast?_concat] at hg
              injection hg with hg
              subst hg
              exact fun he => hfp he.symm)
          simpa [pend] using hsnoc
        · intro i hi
          by_cases hilt : i < processed.length
          · obtain ⟨q, hq1, hq2⟩ := inv.covers i hilt
            rw [take_append_lt (le_of_lt hilt), get_append_lt hilt hi]
            refine ⟨q, hq1, ?_⟩
            have hq2' : glyphStoreAt
                (st.glyphs ++ [⟨⟨st.rstart, st.rend⟩, p⟩])
                ⟨a + byteLen (processed.take i),
                 a + byteLen (processed.take i) +
                   (processed.get ⟨i, hilt⟩).utf8Size⟩ = some q := by
              simpa [pend, hp] using hq2
            have := @glyphStoreAt_append_of_some _
              [⟨⟨st.rend, st.rend + ch.utf8Size⟩, fis⟩] _ _ hq2'
            simpa [pend] using this
          · have hieq : i = processed.length := by
              simp at hi; omega
            subst hieq
            have htake : (processed ++ [ch]).take processed.length = processed :=
              List.take_left processed [ch]
            rw [htake, get_append_last processed ch hi]
            refine ⟨fis, ht, ?_⟩
            have hoff : a + byteLen processed = st.rend := inv.rend_eq.symm
            rw [hoff]
            have hends : ∀ g ∈ st.glyphs ++ [⟨⟨st.rstart, st.rend⟩, p⟩],
                g.range.rend ≤ st.rend :=
              fun g hm => runsChainB_mem_rend_le hchain' hm
            have := glyphStoreAt_last (p := fis) (x := st.rend)
              (c := st.rend + ch.utf8Size) (Char.utf8Size_pos ch)
              (le_refl _) (le_refl _) hends
            simpa [pend] using this

theorem GInv.loop {pf : Font} {cf : Option Font} {fc : FontContext} {a : Nat} :
    ∀ {cs : List Char} {processed : List Char} {st stF : GState},
    GInv pf cf fc a processed st →
    setGlyphsLoop pf cf fc st cs = Except.ok stF →
    GInv pf cf fc a (processed ++ cs) stF := by
  intro cs
  induction cs with
  | nil =>
      intro processed st stF inv h
      unfold setGlyphsLoop at h
      injection h with h
      subst h
      simpa using inv
  | cons ch cs ih =>
      intro processed st stF inv h
      unfold setGlyphsLoop at h
      cases hstep : setGlyphsStep pf cf fc st ch with
      | error e => rw [hstep] at h; exact absurd h (by simp)
      | ok st1 =>
          rw [hstep] at h
          have inv1 := inv.step hstep
          have := ih inv1 h
          simpa using this

theorem tierE_error {pf : Font} {cf : Option Font} {fc : FontContext}
    {ch : Char} {e : Error} (h : tierE pf cf fc ch = Except.error e) :
    e = Error.NoMatchingFontFamily := by
  unfold tierE at h
  cases cf with
  | none =>
      by_cases hpar : match_font_family ch pf = true
      · simp [hpar] at h
      · cases hsel : fc.select_font_family ch with
        | some i => simp [hpar, hsel] at h
        | none =>
            simp [hpar, hsel] at h
            exact h.symm
  | some f =>
      by_cases hchild : match_font_family ch f = true
      · simp [hchild] at h
      · by_cases hpar : match_font_family ch pf = true
        · simp [hchild, hpar] at h
        · cases hsel : fc.select_font_family ch with
          | some i => simp [hchild, hpar, hsel] at h
          | none =>
              simp [hchild, hpar, hsel] at h
              exact h.symm

theorem setGlyphsStep_ok_exists {pf : Font} {cf : Option Font}
    {fc : FontContext} {st : GState} {ch : Char} {fis : FontIndexStore}
    (ht : tierE pf cf fc ch = Except.ok fis) :
    ∃ st', setGlyphsStep pf cf fc st ch = Except.ok st' := by
  cases hp : st.prev with
  | none => exact ⟨_, setGlyphsStep_first hp ht⟩
  | some p =>
      by_cases hfp : fis = p
      · subst hfp
        exact ⟨_, setGlyphsStep_same hp ht⟩
      · exact ⟨_, setGlyphsStep_change hp ht hfp⟩

theorem setGlyphsStep_error_shape {pf : Font} {cf : Option Font}
    {fc : FontContext} {st : GState} {ch : Char} {e : Error}
    (h : setGlyphsStep pf cf fc st ch = Except.error e) :
    e = Error.NoMatchingFontFamily := by
  cases ht : tierE pf cf fc ch with
  | error e' =>
      rw [setGlyphsStep_err ht] at h
      injection h with h
      subst h
      exact tierE_error ht
  | ok fis =>
      obtain ⟨st', hok⟩ := @setGlyphsStep_ok_exists _ _ _ st _ _ ht
      rw [hok] at h
      exact absurd h (by simp)

theorem setGlyphsLoop_error_shape {pf : Font} {cf : Option Font}
    {fc : FontContext} :
    ∀ {cs : List Char} {st : GState} {e : Error},
    setGlyphsLoop pf cf fc st cs = Except.error e →
    e = Error.NoMatchingFontFamily := by
  intro cs
  induction cs with
  | nil =>
      intro st e h
      unfold setGlyphsLoop at h
      exact absurd h (by simp)
  | cons ch cs ih =>
      intro st e h
      unfold setGlyphsLoop at h
      cases hstep : setGlyphsStep pf cf fc st ch with
      | error e' =>
          rw [hstep] at h
          injection h with h
          subst h
          exact setGlyphsStep_error_shape hstep
      | ok st1 =>
          rw [hstep] at h
          exact ih h

theorem setGlyphsLoop_error_of_mem {pf : Font} {cf : Option Font}
    {fc : FontContext} :
    ∀ {cs : List Char} {st : GState} {ch : Char}, ch ∈ cs →
    tierE pf cf fc ch = Except.error Error.NoMatchingFontFamily →
    setGlyphsLoop pf cf fc st cs = Except.error Error.NoMatchingFontFamily := by
  intro cs
  induction cs with
  | nil => intro st ch hm; cases hm
  | cons c cs ih =>
      intro st ch hm hbad
      unfold setGlyphsLoop
      cases ht : tierE pf cf fc c with
      | error e =>
          rw [setGlyphsStep_err ht]
          have := tierE_error ht
          subst this
          rfl
      | ok fis =>
          obtain ⟨st', hok⟩ := @setGlyphsStep_ok_exists _ _ _ st _ _ ht
          rw [hok]
          rcases List.mem_cons.mp hm with rfl | hm'
          · rw [ht] at hbad; exact absurd hbad (by simp)
          · exact ih hm' hbad

theorem set_glyphs_error_shape {s : SplitText} {pf : Font} {fc : FontContext}
    {a : Nat} {e : Error} (h : s.set_glyphs pf a fc = Except.error e) :
    e = Error.NoMatchingFontFamily := by
  unfold SplitText.set_glyphs at h
  cases hloop : setGlyphsLoop pf s.font fc ⟨[], a, a, none⟩ s.text with
  | error e' =>
      rw [hloop] at h
      injection h with h
      subst h
      exact setGlyphsLoop_error_shape hloop
  | ok stF =>
      rw [hloop] at h
      dsimp only at h
      cases hp : stF.prev <;> rw [hp] at h <;> exact absurd h (by simp)

theorem set_glyphs_error_of_mem {s : SplitText} {pf : Font} {fc : FontContext}
    {a : Nat} {ch : Char} (hm : ch ∈ s.text)
    (hbad : tierE pf s.font fc ch = Except.error Error.NoMatchingFontFamily) :
    s.set_glyphs pf a fc = Except.error Error.NoMatchingFontFamily := by
  unfold SplitText.set_glyphs
  rw [setGlyphsLoop_error_of_mem hm hbad]

/-- Everything the resolution loop guarantees about one freshly-appended
fragment: fields other than `glyphs` are untouched, the cursor advances by
the fragment's byte length, the produced runs chain across exactly
`[a, a + byteLen text)`, adjacent runs have different tiers, and every
character's covering run carries that character's tier. -/
theorem set_glyphs_master {s : SplitText} {pf : Font} {fc : FontContext}
    {a : Nat} {s' : SplitText} {cur : Nat}
    (hg : s.glyphs = [])
    (h : s.set_glyphs pf a fc = Except.ok (s', cur)) :
    s'.text = s.text ∧ s'.style = s.style ∧ s'.font = s.font ∧
    s'.range = s.range ∧
    cur = a + byteLen s.text ∧
    runsChainB s'.glyphs a (a + byteLen s.text) = true ∧
    adjDistinctB s'.glyphs = true ∧
    (s.text = [] → s'.glyphs = []) ∧
    (∀ i (hi : i < s.text.length), ∃ q,
      tierE pf s.font fc (s.text.get ⟨i, hi⟩) = Except.ok q ∧
      glyphStoreAt s'.glyphs
        ⟨a + byteLen (s.text.take i),
         a + byteLen (s.text.take i) + (s.text.get ⟨i, hi⟩).utf8Size⟩
        = some q) := by
  unfold SplitText.set_glyphs at h
  cases hloop : setGlyphsLoop pf s.font fc ⟨[], a, a, none⟩ s.text with
  | error e => rw [hloop] at h; exact absurd h (by simp)
  | ok stF =>
    rw [hloop] at h
    dsimp only at h
    have inv : GInv pf s.font fc a s.text stF := by
      have := GInv.loop (GInv.init pf s.font fc a) hloop
      simpa using this
    cases hp : stF.prev with
    | none =>
        rw [hp] at h
        injection h with h
        obtain ⟨h1, h2⟩ := Prod.mk.injEq .. |>.mp h
        subst h1
        subst h2
        obtain ⟨hgF, hrF, htF⟩ := inv.prev_none hp
        have hre : stF.rend = a := by
          have := inv.rend_eq
          rw [htF] at this
          simpa [byteLen] using this
        refine ⟨rfl, rfl, rfl, rfl, ?_, ?_, ?_, ?_, ?_⟩
        · rw [hre, htF]; simp [byteLen]
        · rw [htF]; simp [byteLen, hg, hgF]
          exact (runsChainB_nil_iff a a).mpr rfl
        · simp [hg, hgF, adjDistinctB]
        · intro _; simp [hg, hgF]
        · intro i hi
          rw [htF] at hi
          simp at hi
    | some p =>
        rw [hp] at h
        injection h with h
        obtain ⟨h1, h2⟩ := Prod.mk.injEq .. |>.mp h
        subst h1
        subst h2
        have hpend : pend stF = [⟨⟨stF.rstart, stF.rend⟩, p⟩] := by
          simp [pend, hp]
        have hglyphs : ({ s with glyphs :=
            s.glyphs ++ (stF.glyphs ++ [⟨⟨stF.rstart, stF.rend⟩, p⟩]) } :
              SplitText).glyphs = stF.glyphs ++ pend stF := by
          simp [hg, hpend]
        have hre := inv.rend_eq
        refine ⟨rfl, rfl, rfl, rfl, hre, ?_, ?_, ?_, ?_⟩
        · rw [hglyphs, hpend]
          rw [← hre]
          exact runsChainB_append_singleton inv.chainG inv.rstart_le
        · rw [hglyphs]
          exact inv.adj
        · intro htext
          rw [htext] at hloop
          unfold setGlyphsLoop at hloop
          injection hloop with hloop
          rw [← hloop] at hp
          simp at hp
        · intro i hi
          rw [hglyphs]
          exact inv.covers i hi

theorem wfFrom_cons_iff (a : Nat) (s : SplitText) (rest : List SplitText) :
    wfFrom a (s :: rest) = true ↔
      s.range.rstart = a ∧ s.range.rend = a + byteLen s.text ∧
        s.glyphs = [] ∧ wfFrom s.range.rend rest = true := by
  simp [wfFrom, List.isEmpty_iff, and_assoc]

theorem setGlyphsList_master {pf : Font} {fc : FontContext} :
    ∀ {splits : List SplitText} {a : Nat} {splits' : List SplitText},
    wfFrom a splits = true →
    setGlyphsList pf fc splits a = Except.ok splits' →
    splits'.map (fun s => s.range) = splits.map (fun s => s.range) ∧
    splits'.map (fun s => s.text) = splits.map (fun s => s.text) ∧
    ∀ s' ∈ splits',
      runsChainB s'.glyphs s'.range.rstart s'.range.rend = true ∧
      adjDistinctB s'.glyphs = true ∧
      (s'.text = [] → s'.glyphs = []) := by
  intro splits
  induction splits with
  | nil =>
      intro a splits' _ h
      unfold setGlyphsList at h
      injection h with h
      subst h
      exact ⟨rfl, rfl, fun s' hm => absurd hm (by simp)⟩
  | cons s rest ih =>
      intro a splits' hwf h
      obtain ⟨hs1, hs2, hs3, hs4⟩ := (wfFrom_cons_iff a s rest).mp hwf
      unfold setGlyphsList at h
      cases hsg : s.set_glyphs pf a fc with
      | error e => rw [hsg] at h; exact absurd h (by simp)
      | ok pr =>
        obtain ⟨s1, cur1⟩ := pr
        rw [hsg] at h
        dsimp only at h
        cases hrest : setGlyphsList pf fc rest cur1 with
        | error e => rw [hrest] at h; exact absurd h (by simp)
        | ok rest1 =>
            rw [hrest] at h
            injection h with h
            subst h
            obtain ⟨htext, hsty, hfont, hrange, hcur, hchain, hadj, hempty,
              hcov⟩ := set_glyphs_master hs3 hsg
            have hcur' : cur1 = s.range.rend := by rw [hcur, hs2]
            rw [hcur'] at hrest
            obtain ⟨ihr, iht, ihm⟩ := ih hs4 hrest
            refine ⟨?_, ?_, ?_⟩
            · simp [hrange, ihr]
            · simp [htext, iht]
            · intro s' hm
              rcases List.mem_cons.mp hm with rfl | hm'
              · refine ⟨?_, hadj, ?_⟩
                · rw [hrange, hs1, hs2]
                  exact hchain
                · intro he
                  exact hempty (htext ▸ he)
              · exact ihm s' hm'

theorem setGlyphsList_adj {pf : Font} {fc : FontContext} :
    ∀ {splits : List SplitText} {a : Nat} {splits' : List SplitText},
    (∀ s ∈ splits, s.glyphs = []) →
    setGlyphsList pf fc splits a = Except.ok splits' →
    ∀ s' ∈ splits', adjDistinctB s'.glyphs = true := by
  intro splits
  induction splits with
  | nil =>
      intro a splits' _ h
      unfold setGlyphsList at h
      injection h with h
      subst h
      exact fun s' hm => absurd hm (by simp)
  | cons s rest ih =>
      intro a splits' hge h
      unfold setGlyphsList at h
      cases hsg : s.set_glyphs pf a fc with
      | error e => rw [hsg] at h; exact absurd h (by simp)
      | ok pr =>
        obtain ⟨s1, cur1⟩ := pr
        rw [hsg] at h
        dsimp only at h
        cases hrest : setGlyphsList pf fc rest cur1 with
        | error e => rw [hrest] at h; exact absurd h (by simp)
        | ok rest1 =>
            rw [hrest] at h
            injection h with h
            subst h
            have hs3 : s.glyphs = [] := hge s (List.mem_cons_self s rest)
            obtain ⟨_, _, _, _, _, _, hadj, _, _⟩ := set_glyphs_master hs3 hsg
            intro s' hm
            rcases List.mem_cons.mp hm with rfl | hm'
            · exact hadj
            · exact ih (fun x hx => hge x (List.mem_cons_of_mem s hx)) hrest
                s' hm'

/-! ## Append lemmas -/

/-- End offset of the last fragment, or `a` when there is none (the
`last_range_end` computation at the top of each append). -/
def lastEnd (a : Nat) : List SplitText → Nat
  | [] => a
  | s :: rest => lastEnd s.range.rend rest

theorem lastEnd_cons (a : Nat) (s : SplitText) (rest : List SplitText) :
    lastEnd a (s :: rest) = lastEnd s.range.rend rest := rfl

theorem getLast_rend_eq_lastEnd (a : Nat) (splits : List SplitText) :
    (match splits.getLast? with
     | some s => s.range.rend
     | none => a) = lastEnd a splits := by
  induction splits generalizing a with
  | nil => rfl
  | cons s rest ih =>
      cases rest with
      | nil => rfl
      | cons s1 rest1 =>
          rw [List.getLast?_cons_cons]
          exact ih s.range.rend

theorem wfFrom_append_singleton :
    ∀ {splits : List SplitText} {a : Nat} (s : SplitText),
    wfFrom a splits = true →
    s.range.rstart = lastEnd a splits →
    s.range.rend = s.range.rstart + byteLen s.text →
    s.glyphs = [] →
    wfFrom a (splits ++ [s]) = true := by
  intro splits
  induction splits with
  | nil =>
      intro a s _ h1 h2 h3
      refine (wfFrom_cons_iff a s []).mpr ⟨?_, ?_, h3, rfl⟩
      · simpa [lastEnd] using h1
      · rw [h2, h1]; simp [lastEnd]
  | cons s0 rest ih =>
      intro a s hwf h1 h2 h3
      obtain ⟨w1, w2, w3, w4⟩ := (wfFrom_cons_iff a s0 rest).mp hwf
      rw [lastEnd_cons] at h1
      have := ih s w4 h1 h2 h3
      exact (wfFrom_cons_iff a s0 (rest ++ [s])).mpr ⟨w1, w2, w3, this⟩

theorem concatTexts_append (l1 l2 : List SplitText) :
    concatTexts (l1 ++ l2) = concatTexts l1 ++ concatTexts l2 := by
  induction l1 with
  | nil => simp [concatTexts]
  | cons s rest ih => simp [concatTexts, ih]

theorem push_ok_splits {tfv : List Nat → Option Font} {ta : TextArea}
    {text : List Char} {style : Style} {fb : Option (List Nat)}
    {u : Except Error Unit} {ta' : TextArea}
    (h : TextArea.push tfv ta text style fb = (u, ta')) (hok : u = Except.ok ()) :
    ∃ f, ta'.splits = ta.splits ++
      [⟨text, some style, f,
        ⟨lastEnd 0 ta.splits, lastEnd 0 ta.splits + byteLen text⟩, []⟩] := by
  unfold TextArea.push at h
  cases fb with
  | none =>
      simp only at h
      obtain ⟨h1, h2⟩ := Prod.mk.injEq .. |>.mp h
      subst h2
      exact ⟨none, by rw [← getLast_rend_eq_lastEnd 0 ta.splits]⟩
  | some bytes =>
      simp only at h
      cases htf : tfv bytes with
      | none =>
          rw [htf] at h
          obtain ⟨h1, h2⟩ := Prod.mk.injEq .. |>.mp h
          rw [← h1] at hok
          exact absurd hok (by simp)
      | some f =>
          rw [htf] at h
          obtain ⟨h1, h2⟩ := Prod.mk.injEq .. |>.mp h
          subst h2
          exact ⟨some f, by rw [← getLast_rend_eq_lastEnd 0 ta.splits]⟩

theorem push_err_splits {tfv : List Nat → Option Font} {ta : TextArea}
    {text : List Char} {style : Style} {fb : Option (List Nat)}
    {e : Error} {ta' : TextArea}
    (h : TextArea.push tfv ta text style fb = (Except.error e, ta')) :
    ta' = ta := by
  unfold TextArea.push at h
  cases fb with
  | none =>
      simp only at h
      obtain ⟨h1, _⟩ := Prod.mk.injEq .. |>.mp h
      exact absurd h1.symm (by simp)
  | some bytes =>
      simp only at h
      cases htf : tfv bytes with
      | none =>
          rw [htf] at h
          exact (Prod.mk.injEq .. |>.mp h).2.symm
      | some f =>
          rw [htf] at h
          obtain ⟨h1, _⟩ := Prod.mk.injEq .. |>.mp h
          exact absurd h1.symm (by simp)

theorem push_text_splits (ta : TextArea) (text : List Char) :
    (ta.push_text text).splits = ta.splits ++
      [⟨text, none, none,
        ⟨lastEnd 0 ta.splits, lastEnd 0 ta.splits + byteLen text⟩, []⟩] := by
  unfold TextArea.push_text
  rw [← getLast_rend_eq_lastEnd 0 ta.splits]

theorem push_text_with_glyphs_splits {ta : TextArea} {text : List Char}
    {font : Font} {fc : FontContext} {ta' : TextArea}
    (h : ta.push_text_with_glyphs text font fc = Except.ok ta') :
    ∃ s', ta'.splits = ta.splits ++ [s'] ∧ s'.text = text := by
  unfold TextArea.push_text_with_glyphs at h
  rw [getLast_rend_eq_lastEnd 0 ta.splits] at h
  dsimp only at h
  cases hsg : SplitText.set_glyphs
      ⟨text, none, none,
        ⟨lastEnd 0 ta.splits, lastEnd 0 ta.splits + byteLen text⟩, []⟩
      font (lastEnd 0 ta.splits) fc with
  | error e => rw [hsg] at h; exact absurd h (by simp)
  | ok pr =>
      obtain ⟨s1, cur1⟩ := pr
      rw [hsg] at h
      dsimp only at h
      injection h with h
      subst h
      obtain ⟨htext, _, _, _, _, _, _, _, _⟩ := set_glyphs_master rfl hsg
      exact ⟨s1, rfl, htext⟩

theorem applyAppends_as_string {tfv : List Nat → Option Font} :
    ∀ {ops : List AppendOp} {ta ta' : TextArea},
    applyAppends tfv ta ops = Except.ok ta' →
    ta'.as_string = ta.as_string ++ (ops.map AppendOp.textOf).flatten := by
  intro ops
  induction ops with
  | nil =>
      intro ta ta' h
      unfold applyAppends at h
      injection h with h
      subst h
      simp
  | cons op rest ih =>
      intro ta ta' h
      cases op with
      | push t sty fb =>
          unfold applyAppends at h
          cases hpush : TextArea.push tfv ta t sty fb with
          | mk u ta1 =>
            rw [hpush] at h
            cases u with
            | error e => exact absurd h (by simp)
            | ok uu =>
                obtain ⟨f, hsp⟩ := push_ok_splits hpush (by rfl)
                have h1 := ih h
                rw [h1]
                unfold TextArea.as_string
                rw [hsp, concatTexts_append]
                simp [concatTexts, AppendOp.textOf, TextArea.as_string]
      | push_text t =>
          unfold applyAppends at h
          have h1 := ih h
          rw [h1]
          unfold TextArea.as_string
          rw [push_text_splits, concatTexts_append]
          simp [concatTexts, AppendOp.textOf, TextArea.as_string]
      | push_text_with_glyphs t f fc =>
          unfold applyAppends at h
          cases hptg : ta.push_text_with_glyphs t f fc with
          | error e => rw [hptg] at h; exact absurd h (by simp)
          | ok ta1 =>
              rw [hptg] at h
              obtain ⟨s', hsp, htext⟩ := push_text_with_glyphs_splits hptg
              have h1 := ih h
              rw [h1]
              unfold TextArea.as_string
              rw [hsp, concatTexts_append]
              simp [concatTexts, AppendOp.textOf, TextArea.as_string, htext]

theorem applyAppends_wf {tfv : List Nat → Option Font} :
    ∀ {ops : List AppendOp} {ta ta' : TextArea},
    (∀ op ∈ ops, op.resolves = false) →
    wfB ta = true →
    applyAppends tfv ta ops = Except.ok ta' →
    wfB ta' = true := by
  intro ops
  induction ops with
  | nil =>
      intro ta ta' _ hwf h
      unfold applyAppends at h
      injection h with h
      subst h
      exact hwf
  | cons op rest ih =>
      intro ta ta' hnr hwf h
      have hnr' : ∀ op' ∈ rest, op'.resolves = false :=
        fun op' hm => hnr op' (List.mem_cons_of_mem op hm)
      cases op with
      | push t sty fb =>
          unfold applyAppends at h
          cases hpush : TextArea.push tfv ta t sty fb with
          | mk u ta1 =>
            rw [hpush] at h
            cases u with
            | error e => exact absurd h (by simp)
            | ok uu =>
                obtain ⟨f, hsp⟩ := push_ok_splits hpush (by rfl)
                refine ih hnr' ?_ h
                unfold wfB
                rw [hsp]
                exact wfFrom_append_singleton _ hwf rfl rfl rfl
      | push_text t =>
          unfold applyAppends at h
          refine ih hnr' ?_ h
          unfold wfB
          rw [push_text_splits]
          exact wfFrom_append_singleton _ hwf rfl rfl rfl
      | push_text_with_glyphs t f fc =>
          exact absurd (hnr _ (List.mem_cons_self _ _)) (by
            simp [AppendOp.resolves])

/-! ## Lookup correspondence -/

theorem find?_pairs_single (s : SplitText) (gs : List Glyph) (r : Rg) :
    (gs.map (fun g => (s, g))).find?
        (fun p => decide (p.2.range.rstart ≤ r.rstart) &&
                  decide (r.rend ≤ p.2.range.rend)) =
      (findGlyph gs r).map (fun g => (s, g)) := by
  induction gs with
  | nil => rfl
  | cons g gs ih =>
      by_cases hc : g.range.rstart ≤ r.rstart ∧ r.rend ≤ g.range.rend
      · simp [List.find?, findGlyph, hc]
      · rw [Decidable.not_and_iff_or_not] at hc
        rcases hc with hc | hc
        · simp [List.find?, findGlyph, hc, ih]
        · simp [List.find?, findGlyph, hc, ih]

theorem lookup_eq_lookupSpec (ta : TextArea) (r : Rg) :
    ta.get_glyphs_from_char_range r =
      match lookupSpec ta r with
      | some p => (some p.1, some p.2)
      | none => (none, none) := by
  unfold TextArea.get_glyphs_from_char_range lookupSpec pairsOf
  obtain ⟨splits⟩ := ta
  induction splits with
  | nil => rfl
  | cons s rest ih =>
      simp only [List.map_cons, List.flatten_cons, List.find?_append]
      rw [find?_pairs_single s s.glyphs r]
      unfold lookupSplits SplitText.get_glyphs_from_char_range
      cases hfg : findGlyph s.glyphs r with
      | some g => simp [hfg]
      | none =>
          simp only [hfg, Option.map_none', Option.none_or]
          exact ih

/-! ## Compositor lemmas -/

theorem sliceBytesGo_self (s : List Char) (pos a : Nat) :
    sliceBytesGo s pos a a = [] := by
  induction s generalizing pos with
  | nil => rfl
  | cons c cs ih =>
      have := Char.utf8Size_pos c
      have hnc : ¬(a ≤ pos ∧ pos + c.utf8Size ≤ a) := by omega
      simp [sliceBytesGo, hnc, ih]

theorem sliceBytes_self (s : List Char) (a : Nat) : sliceBytes s a a = [] :=
  sliceBytesGo_self s 0 a

theorem paintCharStep_calls (ctx : Ctx) (elm : Text) (line : Line)
    (slice : List Char) (st : PCState) (p : Nat × Char) :
    ∃ δ, (paintCharStep ctx elm line slice st p).calls = st.calls ++ δ := by
  unfold paintCharStep
  cases hl : elm.textarea.get_split_text_from_char_range
      ⟨line.range.rstart + p.1, line.range.rstart + p.1 + p.2.utf8Size⟩ with
  | none =>
      simp only [hl]
      exact ⟨_, rfl⟩
  | some s =>
      cases hcst : st.cst with
      | none =>
          simp only [hl, hcst]
          exact ⟨[], by simp⟩
      | some c =>
          simp only [hl, hcst]
          by_cases hb : c.range.rstart ≤ s.range.rstart ∧ s.range.rend ≤ c.range.rend
          · simp only [hb.1, hb.2, decide_eq_true_eq, if_true,
              Bool.and_eq_true, and_self, if_pos]
            simp [hb.1, hb.2]
          · rw [Decidable.not_and_iff_or_not] at hb
            rcases hb with hb | hb <;> simp [hb]

theorem paintCharLoop_calls (ctx : Ctx) (elm : Text) (line : Line)
    (slice : List Char) :
    ∀ (ps : List (Nat × Char)) (st : PCState),
    ∃ δ, (paintCharLoop ctx elm line slice st ps).calls = st.calls ++ δ := by
  intro ps
  induction ps with
  | nil => intro st; exact ⟨[], by simp [paintCharLoop]⟩
  | cons p ps ih =>
      intro st
      obtain ⟨δ1, h1⟩ := paintCharStep_calls ctx elm line slice st p
      obtain ⟨δ2, h2⟩ := ih (paintCharStep ctx elm line slice st p)
      exact ⟨δ1 ++ δ2, by
        unfold paintCharLoop
        rw [h2, h1, List.append_assoc]⟩

theorem paintLines_acc (ctx : Ctx) (elm : Text) :
    ∀ (ls : List Line) (cs : List DrawCall) (c : Option SplitText),
    paintLines ctx elm (cs, c) ls =
      (cs ++ (paintLines ctx elm ([], c) ls).1,
       (paintLines ctx elm ([], c) ls).2) := by
  intro ls
  induction ls with
  | nil => intro cs c; simp [paintLines]
  | cons l ls ih =>
      intro cs c
      show paintLines ctx elm
          (cs ++ (paintLine ctx elm c l).1, (paintLine ctx elm c l).2) ls =
        (cs ++ (paintLines ctx elm
          ([] ++ (paintLine ctx elm c l).1, (paintLine ctx elm c l).2) ls).1,
         (paintLines ctx elm
          ([] ++ (paintLine ctx elm c l).1, (paintLine ctx elm c l).2) ls).2)
      rw [ih (cs ++ (paintLine ctx elm c l).1) (paintLine ctx elm c l).2,
          ih ([] ++ (paintLine ctx elm c l).1) (paintLine ctx elm c l).2]
      simp

theorem paintLines_append (ctx : Ctx) (elm : Text) :
    ∀ (ls1 ls2 : List Line) (acc : List DrawCall × Option SplitText),
    paintLines ctx elm acc (ls1 ++ ls2) =
      paintLines ctx elm (paintLines ctx elm acc ls1) ls2 := by
  intro ls1
  induction ls1 with
  | nil => intro ls2 acc; rfl
  | cons l ls1 ih =>
      intro ls2 acc
      show paintLines ctx elm
          (acc.1 ++ (paintLine ctx elm acc.2 l).1, (paintLine ctx elm acc.2 l).2)
          (ls1 ++ ls2) =
        paintLines ctx elm (paintLines ctx elm
          (acc.1 ++ (paintLine ctx elm acc.2 l).1, (paintLine ctx elm acc.2 l).2)
          ls1) ls2
      exact ih ls2 _

theorem paintCharStep_unlocated {ctx : Ctx} {elm : Text} {line : Line}
    {slice : List Char} {st : PCState} {p : Nat × Char}
    (hl : elm.textarea.get_split_text_from_char_range
        ⟨line.range.rstart + p.1, line.range.rstart + p.1 + p.2.utf8Size⟩
      = none)
    (hcst : st.cst = none) :
    paintCharStep ctx elm line slice st p =
      { range := ⟨st.range.rend, p.1 + p.2.utf8Size⟩,
        current_width := st.current_width +
          ctx.text_extents (sliceBytes slice st.range.rstart st.range.rend)
            elm.style.font_size elm.font,
        cst := none,
        calls := st.calls ++
          [⟨elm.style.color, line.rect.x + st.current_width, line.rect.y,
            elm.style.font_size, elm.font,
            sliceBytes slice st.range.rstart st.range.rend⟩] } := by
  unfold paintCharStep
  dsimp only
  rw [hl, hcst]
  simp [styleFontOf]

theorem paintCharStep_flush {ctx : Ctx} {elm : Text} {line : Line}
    {slice : List Char} {st : PCState} {p : Nat × Char} {s c : SplitText}
    (hl : elm.textarea.get_split_text_from_char_range
        ⟨line.range.rstart + p.1, line.range.rstart + p.1 + p.2.utf8Size⟩
      = some s)
    (hcst : st.cst = some c)
    (hnc : ¬(c.range.rstart ≤ s.range.rstart ∧ s.range.rend ≤ c.range.rend)) :
    paintCharStep ctx elm line slice st p =
      { range := ⟨st.range.rend, p.1 + p.2.utf8Size⟩,
        current_width := st.current_width +
          ctx.text_extents (sliceBytes slice st.range.rstart st.range.rend)
            (styleFontOf elm.style elm.font (some c)).1.font_size
            (styleFontOf elm.style elm.font (some c)).2,
        cst := some s,
        calls := st.calls ++
          [⟨(styleFontOf elm.style elm.font (some c)).1.color,
            line.rect.x + st.current_width, line.rect.y,
            (styleFontOf elm.style elm.font (some c)).1.font_size,
            (styleFontOf elm.style elm.font (some c)).2,
            sliceBytes slice st.range.rstart st.range.rend⟩] } := by
  unfold paintCharStep
  dsimp only
  rw [hl, hcst]
  rw [Decidable.not_and_iff_or_not] at hnc
  rcases hnc with hnc | hnc <;> simp [hnc]

theorem paintCharLoop_unlocated (ctx : Ctx) (elm : Text) (line : Line)
    (slice : List Char) :
    ∀ (ps : List (Nat × Char)) (st : PCState), st.cst = none →
    (∀ p ∈ ps, elm.textarea.get_split_text_from_char_range
        ⟨line.range.rstart + p.1, line.range.rstart + p.1 + p.2.utf8Size⟩
      = none) →
    (paintCharLoop ctx elm line slice st ps).cst = none ∧
    ∀ c ∈ (paintCharLoop ctx elm line slice st ps).calls,
      c ∈ st.calls ∨ (c.font_size = elm.style.font_size ∧
        c.color = elm.style.color ∧ c.font = elm.font) := by
  intro ps
  induction ps with
  | nil =>
      intro st hcst _
      exact ⟨hcst, fun c hc => Or.inl hc⟩
  | cons p ps ih =>
      intro st hcst hall
      have hl := hall p (List.mem_cons_self p ps)
      have hstep := @paintCharStep_unlocated ctx _ _ slice _ _ hl hcst
      unfold paintCharLoop
      rw [hstep]
      obtain ⟨ih1, ih2⟩ := ih
        { range := ⟨st.range.rend, p.1 + p.2.utf8Size⟩,
          current_width := st.current_width +
            ctx.text_extents (sliceBytes slice st.range.rstart st.range.rend)
              elm.style.font_size elm.font,
          cst := none,
          calls := st.calls ++
            [⟨elm.style.color, line.rect.x + st.current_width, line.rect.y,
              elm.style.font_size, elm.font,
              sliceBytes slice st.range.rstart st.range.rend⟩] } rfl
        (fun q hq => hall q (List.mem_cons_of_mem p hq))
      refine ⟨ih1, fun c hc => ?_⟩
      rcases ih2 c hc with hmem | hprops
      · rcases List.mem_append.mp hmem with hmem' | hmem'
        · exact Or.inl hmem'
        · right
          have : c = ⟨elm.style.color, line.rect.x + st.current_width,
              line.rect.y, elm.style.font_size, elm.font,
              sliceBytes slice st.range.rstart st.range.rend⟩ := by
            simpa using hmem'
          subst this
          exact ⟨rfl, rfl, rfl⟩
      · exact Or.inr hprops

theorem paintLine_unlocated (ctx : Ctx) (elm : Text) (l : Line)
    (hall : ∀ p ∈ charIndices
        (sliceBytes elm.text l.range.rstart l.range.rend) 0,
      elm.textarea.get_split_text_from_char_range
        ⟨l.range.rstart + p.1, l.range.rstart + p.1 + p.2.utf8Size⟩ = none) :
    (paintLine ctx elm none l).2 = none ∧
    ∀ c ∈ (paintLine ctx elm none l).1,
      c.font_size = elm.style.font_size ∧ c.color = elm.style.color ∧
        c.font = elm.font := by
  unfold paintLine
  dsimp only
  obtain ⟨h1, h2⟩ := paintCharLoop_unlocated ctx elm l
    (sliceBytes elm.text l.range.rstart l.range.rend)
    (charIndices (sliceBytes elm.text l.range.rstart l.range.rend) 0)
    ⟨⟨0, 0⟩, 0, none, []⟩ rfl hall
  split
  · refine ⟨h1, fun c hc => ?_⟩
    rcases h2 c hc with hmem | hprops
    · exact absurd hmem (by simp)
    · exact hprops
  · refine ⟨h1, fun c hc => ?_⟩
    rcases List.mem_append.mp hc with hmem | hmem
    · rcases h2 c hmem with hmem' | hprops
      · exact absurd hmem' (by simp)
      · exact hprops
    · have hc' : c = ⟨(styleFontOf elm.style elm.font
          (paintCharLoop ctx elm l
            (sliceBytes elm.text l.range.rstart l.range.rend)
            ⟨⟨0, 0⟩, 0, none, []⟩
            (charIndices (sliceBytes elm.text l.range.rstart l.range.rend) 0)).cst).1.color,
          l.rect.x + (paintCharLoop ctx elm l
            (sliceBytes elm.text l.range.rstart l.range.rend)
            ⟨⟨0, 0⟩, 0, none, []⟩
            (charIndices (sliceBytes elm.text l.range.rstart l.range.rend) 0)).current_width,
          l.rect.y,
          (styleFontOf elm.style elm.font
            (paintCharLoop ctx elm l
              (sliceBytes elm.text l.range.rstart l.range.rend)
              ⟨⟨0, 0⟩, 0, none, []⟩
              (charIndices (sliceBytes elm.text l.range.rstart l.range.rend) 0)).cst).1.font_size,
          (styleFontOf elm.style elm.font
            (paintCharLoop ctx elm l
              (sliceBytes elm.text l.range.rstart l.range.rend)
              ⟨⟨0, 0⟩, 0, none, []⟩
              (charIndices (sliceBytes elm.text l.range.rstart l.range.rend) 0)).cst).2,
          sliceBytes (sliceBytes elm.text l.range.rstart l.range.rend)
            (paintCharLoop ctx elm l
              (sliceBytes elm.text l.range.rstart l.range.rend)
              ⟨⟨0, 0⟩, 0, none, []⟩
              (charIndices (sliceBytes elm.text l.range.rstart l.range.rend) 0)).range.rstart
            (paintCharLoop ctx elm l
              (sliceBytes elm.text l.range.rstart l.range.rend)
              ⟨⟨0, 0⟩, 0, none, []⟩
              (charIndices (sliceBytes elm.text l.range.rstart l.range.rend) 0)).range.rend⟩ := by
        simpa using hmem
      rw [hc', h1]
      exact ⟨rfl, rfl, rfl⟩

theorem paintLines_unlocated (ctx : Ctx) (elm : Text) :
    ∀ (ls : List Line) (cs : List DrawCall),
    (∀ l ∈ ls, ∀ p ∈ charIndices
        (sliceBytes elm.text l.range.rstart l.range.rend) 0,
      elm.textarea.get_split_text_from_char_range
        ⟨l.range.rstart + p.1, l.range.rstart + p.1 + p.2.utf8Size⟩ = none) →
    ∀ c ∈ (paintLines ctx elm (cs, none) ls).1,
      c ∈ cs ∨ (c.font_size = elm.style.font_size ∧
        c.color = elm.style.color ∧ c.font = elm.font) := by
  intro ls
  induction ls with
  | nil => intro cs _ c hc; exact Or.inl hc
  | cons l ls ih =>
      intro cs hall c hc
      obtain ⟨hcst, hprops⟩ := paintLine_unlocated ctx elm l
        (hall l (List.mem_cons_self l ls))
      unfold paintLines at hc
      dsimp only at hc
      rw [hcst] at hc
      have := ih (cs ++ (paintLine ctx elm none l).1)
        (fun l' hl' => hall l' (List.mem_cons_of_mem l hl')) c hc
      rcases this with hmem | hp
      · rcases List.mem_append.mp hmem with hmem' | hmem'
        · exact Or.inl hmem'
        · exact Or.inr (hprops c hmem')
      · exact Or.inr hp

theorem paintLine_calls (ctx : Ctx) (elm : Text) (cst : Option SplitText)
    (l : Line) :
    ∃ δ, (paintLine ctx elm cst l).1 =
      (paintCharLoop ctx elm l
        (sliceBytes elm.text l.range.rstart l.range.rend)
        ⟨⟨0, 0⟩, 0, cst, []⟩
        (charIndices (sliceBytes elm.text l.range.rstart l.range.rend) 0)).calls
        ++ δ := by
  unfold paintLine
  dsimp only
  split
  · exact ⟨[], by simp⟩
  · exact ⟨_, rfl⟩

theorem paintLine_head {ctx : Ctx} {elm : Text} {l : Line}
    {cur s : SplitText} {ch : Char} {cs : List Char}
    (h3 : sliceBytes elm.text l.range.rstart l.range.rend = ch :: cs)
    (h4 : elm.textarea.get_split_text_from_char_range
        ⟨l.range.rstart, l.range.rstart + ch.utf8Size⟩ = some s)
    (h5 : ¬(cur.range.rstart ≤ s.range.rstart ∧
            s.range.rend ≤ cur.range.rend)) :
    ∃ tail, (paintLine ctx elm (some cur) l).1 =
      ⟨(styleFontOf elm.style elm.font (some cur)).1.color,
       l.rect.x, l.rect.y,
       (styleFontOf elm.style elm.font (some cur)).1.font_size,
       (styleFontOf elm.style elm.font (some cur)).2, []⟩ :: tail := by
  have hstep := @paintCharStep_flush ctx elm l (ch :: cs)
    ⟨⟨0, 0⟩, 0, some cur, []⟩ (0, ch) s cur h4 rfl h5
  simp only [sliceBytes_self] at hstep
  obtain ⟨δ2, hδ2⟩ := paintLine_calls ctx elm (some cur) l
  rw [h3] at hδ2
  rw [show paintCharLoop ctx elm l (ch :: cs) ⟨⟨0, 0⟩, 0, some cur, []⟩
        (charIndices (ch :: cs) 0) =
      paintCharLoop ctx elm l (ch :: cs)
        (paintCharStep ctx elm l (ch :: cs) ⟨⟨0, 0⟩, 0, some cur, []⟩ (0, ch))
        (charIndices cs (0 + ch.utf8Size)) from rfl] at hδ2
  rw [hstep] at hδ2
  obtain ⟨δ, hδ⟩ := paintCharLoop_calls ctx elm l (ch :: cs)
    (charIndices cs (0 + ch.utf8Size))
    { range := ⟨0, 0 + ch.utf8Size⟩,
      current_width := 0 + ctx.text_extents []
        (styleFontOf elm.style elm.font (some cur)).1.font_size
        (styleFontOf elm.style elm.font (some cur)).2,
      cst := some s,
      calls := [] ++
        [⟨(styleFontOf elm.style elm.font (some cur)).1.color,
          l.rect.x + 0, l.rect.y,
          (styleFontOf elm.style elm.font (some cur)).1.font_size,
          (styleFontOf elm.style elm.font (some cur)).2, []⟩] }
  rw [hδ] at hδ2
  refine ⟨δ ++ δ2, ?_⟩
  rw [hδ2]
  simp

/-! ## Concrete instances used by the witnesses -/

/-- Example parent font: covers exactly the ASCII range. -/
def exParent : Font := fun c => c.val < 128

/-- Example fragment-override font: covers exactly the letter X. -/
def exChild : Font := fun c => c == 'X'

/-- Example fallback font: covers exactly the non-ASCII range. -/
def exFallbackFont : Font := fun c => c.val ≥ 128

/-- Example fallback resolver: handle 7 for non-ASCII, nothing otherwise. -/
def exFc : FontContext :=
  ⟨fun c => if c.val ≥ 128 then some 7 else none, fun _ => exFallbackFont⟩

/-- Example drawing context: character extents report the font size, text
extents report the byte length. -/
def exCtx : Ctx := ⟨fun _ size _ => size, fun t _ _ => byteLen t⟩

/-- Styled fragment whose own font covers X (which the parent also covers)
while the emoji needs the fallback. -/
def exFragX : SplitText := ⟨['X', 'A', '😀'], none, some exChild, ⟨0, 6⟩, []⟩

/-- Resolution result of `exFragX`: Child on X (priority over Parent),
Parent on A, Global 7 on the emoji. -/
def exFragXRes : SplitText :=
  ⟨['X', 'A', '😀'], none, some exChild, ⟨0, 6⟩,
   [⟨⟨0, 1⟩, FontIndexStore.Child 0⟩,
    ⟨⟨1, 2⟩, FontIndexStore.Parent 0⟩,
    ⟨⟨2, 6⟩, FontIndexStore.Global 7⟩]⟩

def exSty1 : Style := ⟨10, 1⟩

def exSty2 : Style := ⟨20, 2⟩

/-- Three appended fragments, the middle one empty. -/
def exTa : TextArea :=
  ⟨[⟨['a', 'b'], some exSty1, none, ⟨0, 2⟩, []⟩,
    ⟨[], none, none, ⟨2, 2⟩, []⟩,
    ⟨['c', 'd'], some exSty2, none, ⟨2, 4⟩, []⟩]⟩

/-- Resolution result of `exTa`. -/
def exTaRes : TextArea :=
  ⟨[⟨['a', 'b'], some exSty1, none, ⟨0, 2⟩,
      [⟨⟨0, 2⟩, FontIndexStore.Parent 0⟩]⟩,
    ⟨[], none, none, ⟨2, 2⟩, []⟩,
    ⟨['c', 'd'], some exSty2, none, ⟨2, 4⟩,
      [⟨⟨2, 4⟩, FontIndexStore.Parent 0⟩]⟩]⟩

/-- One fragment mixing Parent and Global tiers. -/
def exTaB : TextArea := ⟨[⟨['A', '😀', 'B'], none, none, ⟨0, 6⟩, []⟩]⟩

/-- Resolution result of `exTaB`: three maximal runs of alternating tier. -/
def exTaBRes : TextArea :=
  ⟨[⟨['A', '😀', 'B'], none, none, ⟨0, 6⟩,
      [⟨⟨0, 1⟩, FontIndexStore.Parent 0⟩,
       ⟨⟨1, 5⟩, FontIndexStore.Global 7⟩,
       ⟨⟨5, 6⟩, FontIndexStore.Parent 0⟩]⟩]⟩

/-! ## Claim theorems -/

/-- C1: for every character of a fragment processed by
`SplitText::set_glyphs`, the run covering that character records tier Child
when the fragment's own font supports it, else Parent when the
caller-supplied parent font does, else Global with the handle returned by
the fallback resolver (`tierE` is the transcription of that priority
order); and when the resolver finds no fallback for some character of the
fragment, resolution fails with the `NoMatchingFontFamily` error. -/
theorem C1_per_char_tier (s : SplitText) (pf : Font) (fc : FontContext)
    (a : Nat) :
    (∀ s' cur, s.glyphs = [] → s.set_glyphs pf a fc = Except.ok (s', cur) →
      ∀ i (hi : i < s.text.length),
        glyphStoreAt s'.glyphs
          ⟨a + byteLen (s.text.take i),
           a + byteLen (s.text.take i) + (s.text.get ⟨i, hi⟩).utf8Size⟩
          = (tierE pf s.font fc (s.text.get ⟨i, hi⟩)).toOption)
    ∧ (∀ ch ∈ s.text,
        tierE pf s.font fc ch = Except.error Error.NoMatchingFontFamily →
        s.set_glyphs pf a fc = Except.error Error.NoMatchingFontFamily) := by
  constructor
  · intro s' cur hg h i hi
    obtain ⟨_, _, _, _, _, _, _, _, hcov⟩ := set_glyphs_master hg h
    obtain ⟨q, hq1, hq2⟩ := hcov i hi
    rw [hq1, hq2]
    rfl
  · intro ch hm hbad
    exact set_glyphs_error_of_mem hm hbad

/-- C1 witness: in `exFragX` the first character X is supported by the
fragment's own font and by the parent font, and its covering run records
tier Child (priority Child over Parent, scenario C of the spec). -/
theorem C1_witness :
    glyphStoreAt exFragXRes.glyphs ⟨0, 1⟩ = some (FontIndexStore.Child 0) := by
  have h := (C1_per_char_tier exFragX exParent exFc 0).1 exFragXRes 6 rfl rfl
    0 (by decide)
  exact h

/-- C2: after `TextArea::set_glyphs` has run once on a freshly-appended
`TextArea` (captured by `wfB`: contiguous ranges from 0, range length =
byte length, no resolved glyphs) and returned `Ok`, every fragment's runs
exactly partition its paragraph-global byte range — in order, adjacent,
first run starting at the range start and last run ending at the range end
(`runsChainB`) — fragment ranges are unchanged, and an empty fragment gets
zero runs (its range being empty, the paragraph cursor passes through it
unchanged). -/
theorem C2_partition (ta ta' : TextArea) (pf : Font) (fc : FontContext)
    (hwf : wfB ta = true) (h : ta.set_glyphs pf fc = Except.ok ta') :
    ta'.splits.map (fun s => s.range) = ta.splits.map (fun s => s.range) ∧
    ∀ s' ∈ ta'.splits,
      runsChainB s'.glyphs s'.range.rstart s'.range.rend = true ∧
      (s'.text = [] → s'.glyphs = []) := by
  unfold TextArea.set_glyphs at h
  cases hsl : setGlyphsList pf fc ta.splits 0 with
  | error e => rw [hsl] at h; exact absurd h (by simp)
  | ok splits' =>
      rw [hsl] at h
      injection h with h
      subst h
      obtain ⟨hr, _, hm⟩ := setGlyphsList_master hwf hsl
      exact ⟨hr, fun s' hmem =>
        ⟨(hm s' hmem).1, (hm s' hmem).2.2⟩⟩

/-- C2 witness: resolving `exTa` (which contains an empty middle fragment)
yields runs partitioning `[0,2)` for the first fragment and no runs for the
empty fragment. -/
theorem C2_witness :
    runsChainB [⟨⟨0, 2⟩, FontIndexStore.Parent 0⟩] 0 2 = true ∧
    (⟨[], none, none, ⟨2, 2⟩, []⟩ : SplitText).glyphs = [] := by
  have h := C2_partition exTa exTaRes exParent exFc (by decide) rfl
  refine ⟨?_, ?_⟩
  · have h1 := (h.2 ⟨['a', 'b'], some exSty1, none, ⟨0, 2⟩,
      [⟨⟨0, 2⟩, FontIndexStore.Parent 0⟩]⟩ (List.Mem.head _)).1
    exact h1
  · exact (h.2 ⟨[], none, none, ⟨2, 2⟩, []⟩
      (List.Mem.tail _ (List.Mem.head _))).2 rfl

/-- C5: within every fragment of a `TextArea` that has been resolved once
(each fragment starting with no glyphs), any two adjacent glyph runs carry
different font tiers (`adjDistinctB`): a run boundary is opened only when
the tier changes. -/
theorem C5_adjacent_distinct (ta ta' : TextArea) (pf : Font)
    (fc : FontContext)
    (hg : ∀ s ∈ ta.splits, s.glyphs = [])
    (h : ta.set_glyphs pf fc = Except.ok ta') :
    ∀ s' ∈ ta'.splits, adjDistinctB s'.glyphs = true := by
  unfold TextArea.set_glyphs at h
  cases hsl : setGlyphsList pf fc ta.splits 0 with
  | error e => rw [hsl] at h; exact absurd h (by simp)
  | ok splits' =>
      rw [hsl] at h
      injection h with h
      subst h
      exact setGlyphsList_adj hg hsl

/-- C5 witness: the fragment of `exTaB` resolves to the three runs
Parent/Global 7/Parent, whose adjacent tiers all differ. -/
theorem C5_witness :
    adjDistinctB
      [⟨⟨0, 1⟩, FontIndexStore.Parent 0⟩,
       ⟨⟨1, 5⟩, FontIndexStore.Global 7⟩,
       ⟨⟨5, 6⟩, FontIndexStore.Parent 0⟩] = true := by
  have h := C5_adjacent_distinct exTaB exTaBRes exParent exFc
    (by
      intro s hm
      cases hm with
      | head => rfl
      | tail _ h2 => cases h2) rfl
  exact h ⟨['A', '😀', 'B'], none, none, ⟨0, 6⟩,
    [⟨⟨0, 1⟩, FontIndexStore.Parent 0⟩,
     ⟨⟨1, 5⟩, FontIndexStore.Global 7⟩,
     ⟨⟨5, 6⟩, FontIndexStore.Parent 0⟩]⟩ (List.Mem.head _)

/-- C7: the internal fault branch of `SplitText::set_glyphs` — returning
`NotFoundSpecifiedFontFamily` when a run boundary is detected with no
previous tier recorded — is unreachable for every fragment, every font and
every resolver: whenever the loop closes a run, a previous tier is always
recorded, so `set_glyphs` never produces that error. -/
theorem C7_missing_unreachable (s : SplitText) (pf : Font) (a : Nat)
    (fc : FontContext) :
    s.set_glyphs pf a fc ≠ Except.error Error.NotFoundSpecifiedFontFamily := by
  intro h
  have := set_glyphs_error_shape h
  exact absurd this (by decide)

/-- C7 witness: the concrete fragment `exFragX` never hits the internal
fault branch. -/
theorem C7_witness :
    exFragX.set_glyphs exParent 0 exFc ≠
      Except.error Error.NotFoundSpecifiedFontFamily :=
  C7_missing_unreachable exFragX exParent 0 exFc

/-- C4: for every `TextArea` and every queried byte range,
`TextArea::get_glyphs_from_char_range` returns exactly the first
(fragment, run) pair — scanning fragments then runs in order — whose run
range fully contains the query (`lookupSpec` spells out that first-match
scan over the flattened pair list); and when no run contains the query
(straddling a run or fragment boundary, or lying outside all fragments),
the lookup is empty and `char_extents` surfaces this as the
`OutOfRangeText` error. -/
theorem C4_lookup_first (ta : TextArea) (r : Rg) (ch : Char) (pf : Font)
    (style : Style) (ctx : Ctx) (fc : FontContext) :
    (ta.get_glyphs_from_char_range r =
      match lookupSpec ta r with
      | some p => (some p.1, some p.2)
      | none => (none, none))
    ∧ (lookupSpec ta r = none →
        ta.char_extents ch pf r style ctx fc =
          Except.error Error.OutOfRangeText) := by
  refine ⟨lookup_eq_lookupSpec ta r, fun hnone => ?_⟩
  unfold TextArea.char_extents
  rw [lookup_eq_lookupSpec ta r, hnone]

/-- C4 witness: in the resolved `exTaRes` the query `[1,3)` straddles the
boundary between the two non-empty fragments, the spec-side scan finds
nothing, and `char_extents` fails with `OutOfRangeText` (scenario E). -/
theorem C4_witness :
    exTaRes.char_extents 'a' exParent ⟨1, 3⟩ exSty1 exCtx exFc =
      Except.error Error.OutOfRangeText :=
  (C4_lookup_first exTaRes ⟨1, 3⟩ 'a' exParent exSty1 exCtx exFc).2 rfl

/-- C6: for a resolved `TextArea`, when the lookup of `range` yields a
fragment and run, `char_extents` measures the character with the font
chosen by the run's tier — the fallback font fetched by the Global handle,
the caller's parent font for Parent, the fragment's own font for Child —
failing with `NotFoundSpecifiedFontFamily` when the tier is Child but the
fragment has no font; the font size used is the fragment's style's font
size when the fragment has a style, else the supplied default style's. -/
theorem C6_extents_font (ta : TextArea) (ch : Char) (pf : Font) (r : Rg)
    (style : Style) (ctx : Ctx) (fc : FontContext) (st : SplitText)
    (g : Glyph)
    (h : ta.get_glyphs_from_char_range r = (some st, some g)) :
    (∀ i, g.font_index_store = FontIndexStore.Global i →
      ta.char_extents ch pf r style ctx fc =
        Except.ok (ctx.char_extents ch
          (match st.style with
           | some sty => sty.font_size
           | none => style.font_size) (fc.borrow_font i)))
    ∧ (∀ i, g.font_index_store = FontIndexStore.Parent i →
      ta.char_extents ch pf r style ctx fc =
        Except.ok (ctx.char_extents ch
          (match st.style with
           | some sty => sty.font_size
           | none => style.font_size) pf))
    ∧ (∀ i f, g.font_index_store = FontIndexStore.Child i →
        st.font = some f →
      ta.char_extents ch pf r style ctx fc =
        Except.ok (ctx.char_extents ch
          (match st.style with
           | some sty => sty.font_size
           | none => style.font_size) f))
    ∧ (∀ i, g.font_index_store = FontIndexStore.Child i → st.font = none →
      ta.char_extents ch pf r style ctx fc =
        Except.error Error.NotFoundSpecifiedFontFamily) := by
  unfold TextArea.char_extents
  rw [h]
  dsimp only
  refine ⟨?_, ?_, ?_, ?_⟩
  · intro i hst
    rw [hst]
  · intro i hst
    rw [hst]
  · intro i f hst hf
    rw [hst, hf]
  · intro i hst hf
    rw [hst, hf]

/-- C6 witness: the run covering `[0,1)` in `exTaRes` has Parent tier and
the fragment carries style `exSty1`, so the character is measured with the
parent font at font size 10 (and `exCtx` reports that size). -/
theorem C6_witness :
    exTaRes.char_extents 'a' exParent ⟨0, 1⟩ exSty2 exCtx exFc =
      Except.ok (exCtx.char_extents 'a' 10 exParent) := by
  have h := (C6_extents_font exTaRes 'a' exParent ⟨0, 1⟩ exSty2 exCtx exFc
    ⟨['a', 'b'], some exSty1, none, ⟨0, 2⟩,
      [⟨⟨0, 2⟩, FontIndexStore.Parent 0⟩]⟩
    ⟨⟨0, 2⟩, FontIndexStore.Parent 0⟩ rfl).2.1 0 rfl
  exact h

/-- C8: for every `TextArea`, `as_string` equals the in-order concatenation
of the text arguments of all append operations performed on it
(`applyAppends` over any successful sequence of `push`, `push_text` and
`push_text_with_glyphs`); in particular the empty `TextArea` yields the
empty string and resolving it is a no-op returning `Ok`. -/
theorem C8_as_string_concat (tfv : List Nat → Option Font) (pf : Font)
    (fc : FontContext) :
    (∀ ops ta', applyAppends tfv TextArea.new ops = Except.ok ta' →
      ta'.as_string = (ops.map AppendOp.textOf).flatten)
    ∧ TextArea.new.as_string = [] ∧
      TextArea.new.set_glyphs pf fc = Except.ok TextArea.new := by
  refine ⟨fun ops ta' h => ?_, rfl, rfl⟩
  have := applyAppends_as_string h
  simpa [TextArea.new, TextArea.as_string, concatTexts] using this

/-- C8 witness: appending "ab" (unstyled) then "c" (styled) to a fresh
`TextArea` makes `as_string` return "abc". -/
theorem C8_witness :
    (TextArea.new.push_text ['a', 'b']).push (fun _ => some exParent)
        ['c'] exSty1 none |>.2.as_string = ['a', 'b', 'c'] := by
  have h := (C8_as_string_concat (fun _ => some exParent) exParent exFc).1
    [AppendOp.push_text ['a', 'b'], AppendOp.push ['c'] exSty1 none]
    ((TextArea.new.push_text ['a', 'b']).push (fun _ => some exParent)
      ['c'] exSty1 none).2 rfl
  exact h

/-- C9: for every `TextArea`, pushing text with font bytes that fail to
parse (`Font::try_from_vec`, passed in as `tfv`, returns nothing) makes
`push` return the `InvalidFontBytes` error with the `TextArea` unchanged:
no fragment is appended and the existing fragments, ranges and glyphs are
exactly as before. -/
theorem C9_push_invalid (tfv : List Nat → Option Font) (ta : TextArea)
    (text : List Char) (style : Style) (bytes : List Nat)
    (hbad : tfv bytes = none) :
    TextArea.push tfv ta text style (some bytes) =
      (Except.error Error.InvalidFontBytes, ta) := by
  unfold TextArea.push
  dsimp only
  rw [hbad]

/-- C9 witness: pushing onto `exTa` with a parser that rejects the bytes
returns `InvalidFontBytes` and leaves `exTa` untouched. -/
theorem C9_witness :
    TextArea.push (fun _ => none) exTa ['x'] exSty1 (some [1, 2, 3]) =
      (Except.error Error.InvalidFontBytes, exTa) :=
  C9_push_invalid (fun _ => none) exTa ['x'] exSty1 [1, 2, 3] rfl

def exDefStyle : Style := ⟨5, 9⟩

/-- One fragment covering only bytes `[0,2)` of a three-byte text. -/
def exTaZ : TextArea := ⟨[⟨['a', 'b'], some exSty1, none, ⟨0, 2⟩, []⟩]⟩

/-- Text element whose last character z lies outside every fragment. -/
def exElmZ : Text :=
  ⟨exDefStyle, exParent, ['a', 'b', 'z'], [⟨⟨0, 3⟩, ⟨100, 0⟩⟩], exTaZ⟩

/-- C3 counterexample: the character z of `exElmZ` cannot be located in any
fragment, yet `paint_text` does not abort with any error — it completes and
issues a draw call for z using the substitute default style (font size 5,
color 9) and default font, contradicting the claim that such a character
aborts the pass (TextRangeOutOfBounds/OutOfRangeText) with no substitute
drawing. -/
theorem C3_counterexample :
    OGImageWriter.paint_text exCtx exElmZ =
      [⟨1, 100, 0, 10, exParent, ['a', 'b']⟩,
       ⟨9, 102, 0, 5, exParent, ['z']⟩] ∧
    exTaZ.get_split_text_from_char_range ⟨2, 3⟩ = none := by
  constructor
  · rfl
  · rfl

/-- C3 (amended): a character whose paragraph byte range cannot be located
in any fragment does not abort the line/paint pass; `paint_text` (a total
function in this embedding — the source has no error return for this case)
keeps drawing, and substitution does occur: for an element none of whose
line characters can be located in any fragment, every draw call issued
uses the caller's default style and font as substitutes. -/
theorem C3_unlocated_uses_default (ctx : Ctx) (elm : Text)
    (hall : ∀ l ∈ elm.lines, ∀ p ∈ charIndices
        (sliceBytes elm.text l.range.rstart l.range.rend) 0,
      elm.textarea.get_split_text_from_char_range
        ⟨l.range.rstart + p.1, l.range.rstart + p.1 + p.2.utf8Size⟩ = none) :
    ∀ c ∈ OGImageWriter.paint_text ctx elm,
      c.font_size = elm.style.font_size ∧ c.color = elm.style.color ∧
        c.font = elm.font := by
  unfold OGImageWriter.paint_text
  intro c hc
  rcases paintLines_unlocated ctx elm elm.lines [] hall c hc with hmem | hp
  · exact absurd hmem (by simp)
  · exact hp

/-- Text element over an empty `TextArea`: no character can be located. -/
def exElmQ : Text :=
  ⟨exDefStyle, exParent, ['q'], [⟨⟨0, 1⟩, ⟨0, 0⟩⟩], ⟨[]⟩⟩

/-- C3 witness: painting `exElmQ` (whose only character q is in no
fragment) draws q with the default style and font. -/
theorem C3_witness :
    (⟨9, 0, 0, 5, exParent, ['q']⟩ : DrawCall).font_size =
      exElmQ.style.font_size ∧
    (⟨9, 0, 0, 5, exParent, ['q']⟩ : DrawCall).color =
      exElmQ.style.color ∧
    (⟨9, 0, 0, 5, exParent, ['q']⟩ : DrawCall).font = exElmQ.font :=
  C3_unlocated_uses_default exCtx exElmQ (fun _ _ _ _ => rfl)
    ⟨9, 0, 0, 5, exParent, ['q']⟩
    (List.Mem.tail _ (List.Mem.head _))

/-- C10: `current_split_text` is not reset between lines while the pending
range restarts empty, so when the lines processed so far leave an
accumulated fragment `cur` and the next line's first character belongs to a
fragment not contained in `cur`, `paint_text` issues — right after the
previous lines' calls — a draw call whose text is the empty string, using
the previous fragment's style and font (with the element defaults as
fallback), before that line's first real run. -/
theorem C10_empty_draw (ctx : Ctx) (elm : Text) (pre : List Line) (l : Line)
    (post : List Line) (cs₀ : List DrawCall) (cur s : SplitText)
    (ch : Char) (cs : List Char)
    (h1 : elm.lines = pre ++ l :: post)
    (h2 : paintLines ctx elm ([], none) pre = (cs₀, some cur))
    (h3 : sliceBytes elm.text l.range.rstart l.range.rend = ch :: cs)
    (h4 : elm.textarea.get_split_text_from_char_range
        ⟨l.range.rstart, l.range.rstart + ch.utf8Size⟩ = some s)
    (h5 : ¬(cur.range.rstart ≤ s.range.rstart ∧
            s.range.rend ≤ cur.range.rend)) :
    ∃ suffix, OGImageWriter.paint_text ctx elm =
      cs₀ ++ (⟨(styleFontOf elm.style elm.font (some cur)).1.color,
        l.rect.x, l.rect.y,
        (styleFontOf elm.style elm.font (some cur)).1.font_size,
        (styleFontOf elm.style elm.font (some cur)).2, []⟩ :: suffix) := by
  obtain ⟨tail, htail⟩ := paintLine_head h3 h4 h5
  unfold OGImageWriter.paint_text
  rw [h1, paintLines_append, h2]
  have hred : paintLines ctx elm (cs₀, some cur) (l :: post) =
      paintLines ctx elm (cs₀ ++ (paintLine ctx elm (some cur) l).1,
        (paintLine ctx elm (some cur) l).2) post := rfl
  rw [hred, paintLines_acc, htail]
  refine ⟨tail ++ (paintLines ctx elm
    ([], (paintLine ctx elm (some cur) l).2) post).1, ?_⟩
  simp

def exFragAB : SplitText := ⟨['a', 'b'], some exSty1, none, ⟨0, 2⟩, []⟩

def exFragCD : SplitText := ⟨['c', 'd'], some exSty2, none, ⟨2, 4⟩, []⟩

/-- Two-fragment textarea rendered over two lines. -/
def exTaR : TextArea := ⟨[exFragAB, exFragCD]⟩

def exL1 : Line := ⟨⟨0, 2⟩, ⟨100, 0⟩⟩

def exL2 : Line := ⟨⟨2, 4⟩, ⟨100, 50⟩⟩

def exElmR : Text :=
  ⟨exDefStyle, exParent, ['a', 'b', 'c', 'd'], [exL1, exL2], exTaR⟩

/-- C10 witness: in `exElmR` line 2 starts with a character of the second
fragment while the first fragment is still accumulated, so the draw list
continues with an empty-text call carrying the first fragment's style
(font size 10, color 1). -/
theorem C10_witness :
    ∃ suffix, OGImageWriter.paint_text exCtx exElmR =
      [⟨1, 100, 0, 10, exParent, ['a', 'b']⟩] ++
        (⟨(styleFontOf exElmR.style exElmR.font (some exFragAB)).1.color,
          exL2.rect.x, exL2.rect.y,
          (styleFontOf exElmR.style exElmR.font (some exFragAB)).1.font_size,
          (styleFontOf exElmR.style exElmR.font (some exFragAB)).2, []⟩ ::
          suffix) :=
  C10_empty_draw exCtx exElmR [exL1] exL2 []
    [⟨1, 100, 0, 10, exParent, ['a', 'b']⟩] exFragAB exFragCD 'c' ['d']
    rfl rfl rfl rfl (by decide)
